import Mathlib

/-!
Verification of the basis-construction core of the `spinsys` half-spin
library (`half.py`): `create_complete_basis`, `full_matrix`,
`reorder_basis` and `similarity_trans_matrix`, shallowly embedded as
executable Lean definitions.

Python floats carrying half-integer magnetizations are embedded as `ℚ`,
Python dicts as insertion-ordered association lists with overwrite,
NumPy/SciPy sparse matrices as dimension-carrying entry functions.
-/

namespace Spinsys

/-- Python 3 `round`: round half to even (banker's rounding). -/
def pythonRound (x : ℚ) : ℤ :=
  let f := ⌊x⌋
  let r := x - f
  if r < 1/2 then f
  else if 1/2 < r then f + 1
  else if 2 ∣ f then f else f + 1

/-- The `n`-digit big-endian binary representation of `v` (used to relate
numeric values to the 0/1 arrangement lists of `half.py`). -/
def toBits : ℕ → ℕ → List ℕ
  | 0, _ => []
  | n + 1, v => toBits n (v / 2) ++ [v % 2]

/-- Modelled from the spec: `utils.misc.bin_to_dec` (missing from `src/`,
only called from `half.py`): the integer value of a binary digit sequence
read as a base-2 number, most-significant digit first. -/
def bin_to_dec (l : List ℕ) : ℕ := l.foldl (fun a d => 2 * a + d) 0

/-- All values `v < 2^n` whose `n`-bit representation has exactly `p` ones,
in ascending numeric order. -/
def sectorVals (n p : ℕ) : List ℕ :=
  (List.range (2 ^ n)).filter (fun v => (toBits n v).count 1 = p)

/-- The sector's values in descending numeric order: the enumeration order
of the basis states (sector-local index 0 carries the largest value). -/
def sectorDesc (n p : ℕ) : List ℕ := (sectorVals n p).reverse

/-- Modelled from the spec: `utils.misc.binary_permutation` (missing from
`src/`). Per the spec it yields the next arrangement of the same multiset
of binary digits, cycling through all `C(p+q, p)` arrangements in the
fixed deterministic order used to assign sector-local indices (descending
numeric value, so that local index 0 re-aligns with the largest global
index of the sector), and signals exhaustion (`IndexError`, modelled as
`none`) when no distinct arrangement exists, which the calling code notes
happens exactly when `current_j` is `N // 2` or `-N // 2`. -/
def binary_permutation (l : List ℕ) : Option (List ℕ) :=
  let ds := sectorDesc l.length (l.count 1)
  if ds.length ≤ 1 then none
  else some (toBits l.length (ds.getD ((ds.indexOf (bin_to_dec l) + 1) % ds.length) 0))

/-- Python-dict insert: overwrite in place if the key exists, else append. -/
def dinsert (d : List (ℕ × ℕ)) (k v : ℕ) : List (ℕ × ℕ) :=
  if d.any (fun p => p.1 = k) then d.map (fun p => if p.1 = k then (k, v) else p)
  else d ++ [(k, v)]

/-- Python-dict lookup (keys are unique, so first match suffices). -/
def dget (d : List (ℕ × ℕ)) (k : ℕ) : Option ℕ :=
  (d.find? (fun p => p.1 = k)).map (fun p => p.2)

/-- Result of `create_complete_basis`: the enumerated arrangements, the two
index dicts, and an instrumentation counter for how many times the
permutation exhaustion signal was caught by the `except` clause. -/
structure CCB where
  basis_set : List (List ℕ)
  to_diag : List (ℕ × ℕ)
  to_ord : List (ℕ × ℕ)
  exhaust : ℕ
deriving DecidableEq

/-- One iteration of the loop in `create_complete_basis`: advance the
arrangement (keeping it unchanged and counting the caught signal when the
permutation is exhausted), record it, and record both index-map entries
with the reflection `dim - decimal_basis - 1`. -/
def ccbStep (dim : ℕ) (st : List ℕ × CCB) (i : ℕ) : List ℕ × CCB :=
  match binary_permutation st.1 with
  | some b =>
      let dec := bin_to_dec b
      (b, { st.2 with
            basis_set := st.2.basis_set ++ [b]
            to_diag := dinsert st.2.to_diag (dim - dec - 1) i
            to_ord := dinsert st.2.to_ord i (dim - dec - 1) })
  | none =>
      let b := st.1
      let dec := bin_to_dec b
      (b, { st.2 with
            basis_set := st.2.basis_set ++ [b]
            to_diag := dinsert st.2.to_diag (dim - dec - 1) i
            to_ord := dinsert st.2.to_ord i (dim - dec - 1)
            exhaust := st.2.exhaust + 1 })

/-- `int(round(scipy.misc.comb(N, spin_ups)))`: the binomial coefficient as
an exact integer, `0` outside `[0, N]` (SciPy's `comb` returns `0` there). -/
def chooseInt (N : ℕ) (su : ℤ) : ℕ :=
  if 0 ≤ su ∧ su ≤ (N : ℤ) then N.choose su.toNat else 0

/-- Body of `create_complete_basis` once `spin_ups` has been computed:
`spin_downs = N - spin_ups`, `blksize = int(round(comb(N, spin_ups)))`,
seed `[0]*spin_downs + [1]*spin_ups` (Python list repetition clamps
negative counts to zero), then the enumeration loop. -/
def ccbOf (N : ℕ) (spin_ups : ℤ) : CCB :=
  let dim := 2 ^ N
  let spin_downs : ℤ := (N : ℤ) - spin_ups
  let blksize := chooseInt N spin_ups
  let basis_seed := List.replicate spin_downs.toNat 0 ++ List.replicate spin_ups.toNat 1
  ((List.range blksize).foldl (ccbStep dim) (basis_seed, ⟨[], [], [], 0⟩)).2

/-- `create_complete_basis(N, current_j)` from `half.py`:
`spin_ups = int(round(0.5 * N + current_j))`, then the enumeration. -/
def create_complete_basis (N : ℕ) (current_j : ℚ) : CCB :=
  ccbOf N (pythonRound ((N : ℚ) / 2 + current_j))

/-! ### Elementary facts about binary representations -/

theorem toBits_length (n v : ℕ) : (toBits n v).length = n := by
  induction n generalizing v with
  | zero => rfl
  | succ m ih => simp [toBits, ih]

theorem bin_to_dec_append (l : List ℕ) (d : ℕ) :
    bin_to_dec (l ++ [d]) = 2 * bin_to_dec l + d := by
  simp [bin_to_dec, List.foldl_append]

theorem bin_to_dec_toBits (n : ℕ) : ∀ v, v < 2 ^ n → bin_to_dec (toBits n v) = v := by
  induction n with
  | zero => intro v hv; interval_cases v; rfl
  | succ m ih =>
      intro v hv
      have hdiv : v / 2 < 2 ^ m := by
        have h2 : (2 : ℕ) ^ (m + 1) = 2 ^ m * 2 := by ring
        exact Nat.div_lt_of_lt_mul (by omega)
      have := ih (v / 2) hdiv
      simp only [toBits, bin_to_dec_append, this]
      omega

theorem toBits_digit_lt_two (n v : ℕ) : ∀ d ∈ toBits n v, d < 2 := by
  induction n generalizing v with
  | zero => simp [toBits]
  | succ m ih =>
      intro d hd
      simp only [toBits, List.mem_append, List.mem_singleton] at hd
      rcases hd with h | h
      · exact ih _ _ h
      · subst h; exact Nat.mod_lt _ (by norm_num)

theorem toBits_zero_eq (n : ℕ) : toBits n 0 = List.replicate n 0 := by
  induction n with
  | zero => rfl
  | succ m ih =>
      simp only [toBits, Nat.zero_div, Nat.zero_mod, ih]
      rw [List.replicate_succ']

theorem toBits_pow_sub_one (p n : ℕ) (h : p ≤ n) :
    toBits n (2 ^ p - 1) = List.replicate (n - p) 0 ++ List.replicate p 1 := by
  induction p generalizing n with
  | zero => simpa using toBits_zero_eq n
  | succ q ih =>
      obtain ⟨m, rfl⟩ : ∃ m, n = m + 1 := ⟨n - 1, by omega⟩
      have hq : q ≤ m := by omega
      have h1 : (2 ^ (q + 1) - 1) / 2 = 2 ^ q - 1 := by
        have : (2 : ℕ) ^ (q + 1) = 2 * 2 ^ q := by ring
        have hpos : (1 : ℕ) ≤ 2 ^ q := Nat.one_le_two_pow
        omega
      have h2 : (2 ^ (q + 1) - 1) % 2 = 1 := by
        have : (2 : ℕ) ^ (q + 1) = 2 * 2 ^ q := by ring
        have hpos : (1 : ℕ) ≤ 2 ^ q := Nat.one_le_two_pow
        omega
      simp only [toBits, h1, h2, ih m hq]
      rw [List.append_assoc, ← List.replicate_succ' q (1 : ℕ)]
      congr 2
      omega

theorem count_one_toBits_le (n v : ℕ) : (toBits n v).count 1 ≤ n := by
  calc (toBits n v).count 1 ≤ (toBits n v).length := List.count_le_length 1 _
  _ = n := toBits_length n v

/-- A value whose `n`-bit representation has `p` ones is at least `2^p - 1`. -/
theorem pow_le_succ_of_count (n : ℕ) :
    ∀ v, 2 ^ ((toBits n v).count 1) ≤ v + 1 := by
  induction n with
  | zero => intro v; simp [toBits]
  | succ m ih =>
      intro v
      have hv2 : v % 2 < 2 := Nat.mod_lt _ (by norm_num)
      have hsplit : (toBits (m + 1) v).count 1 =
          (toBits m (v / 2)).count 1 + (if v % 2 = 1 then 1 else 0) := by
        simp only [toBits, List.count_append, List.count_singleton]
        congr 1
        by_cases h : v % 2 = 1 <;> simp [h, beq_iff_eq]
      have hdm := Nat.div_add_mod v 2
      have hcases : v % 2 = 0 ∨ v % 2 = 1 := by omega
      rcases hcases with h0 | h1
      · rw [hsplit, h0]
        simp only [if_neg (by omega : ¬ (0 : ℕ) = 1), Nat.add_zero]
        have := ih (v / 2)
        omega
      · rw [hsplit, h1, if_pos rfl, pow_succ]
        have := ih (v / 2)
        omega

theorem toBits_compl (n : ℕ) :
    ∀ v, v < 2 ^ n → toBits n (2 ^ n - 1 - v) = (toBits n v).map (fun d => 1 - d) := by
  induction n with
  | zero => intro v hv; interval_cases v; rfl
  | succ m ih =>
      intro v hv
      have hpow : (2 : ℕ) ^ (m + 1) = 2 * 2 ^ m := by ring
      have hu : v / 2 < 2 ^ m := by
        exact Nat.div_lt_of_lt_mul (by omega)
      have hdm := Nat.div_add_mod v 2
      have hv2 : v % 2 < 2 := Nat.mod_lt _ (by norm_num)
      have hpos : (1 : ℕ) ≤ 2 ^ m := Nat.one_le_two_pow
      have hval : 2 ^ (m + 1) - 1 - v = 2 * (2 ^ m - 1 - v / 2) + (1 - v % 2) := by
        omega
      have hdiv : (2 ^ (m + 1) - 1 - v) / 2 = 2 ^ m - 1 - v / 2 := by omega
      have hmod : (2 ^ (m + 1) - 1 - v) % 2 = 1 - v % 2 := by omega
      simp only [toBits, hdiv, hmod, ih (v / 2) hu, List.map_append, List.map_singleton]

theorem count_one_map_compl (l : List ℕ) (h : ∀ d ∈ l, d < 2) :
    (l.map (fun d => 1 - d)).count 1 = l.length - l.count 1 := by
  induction l with
  | nil => rfl
  | cons a t ih =>
      have ha : a < 2 := h a (List.mem_cons_self a t)
      have ht := ih (fun d hd => h d (List.mem_cons_of_mem a hd))
      have hcl : t.count 1 ≤ t.length := List.count_le_length 1 t
      simp only [List.map_cons, List.count_cons, List.length_cons, beq_iff_eq]
      interval_cases a <;> simp <;> omega

/-! ### The sector value lists -/

theorem mem_sectorVals {n p v : ℕ} :
    v ∈ sectorVals n p ↔ v < 2 ^ n ∧ (toBits n v).count 1 = p := by
  simp [sectorVals, List.mem_filter, List.mem_range]

theorem sectorVals_sorted (n p : ℕ) : (sectorVals n p).Pairwise (· < ·) :=
  (List.sorted_lt_range (2 ^ n)).sublist (List.filter_sublist _)

theorem sectorVals_nodup (n p : ℕ) : (sectorVals n p).Nodup :=
  (sectorVals_sorted n p).imp (fun h => Nat.ne_of_lt h)

theorem sectorDesc_nodup (n p : ℕ) : (sectorDesc n p).Nodup := by
  simpa [sectorDesc] using sectorVals_nodup n p

theorem mem_sectorDesc {n p v : ℕ} :
    v ∈ sectorDesc n p ↔ v < 2 ^ n ∧ (toBits n v).count 1 = p := by
  rw [sectorDesc, List.mem_reverse]; exact mem_sectorVals

/-- The binary split of the sector count along the most significant bit. -/
theorem toBits_succ_low {n v : ℕ} (h : v < 2 ^ n) :
    toBits (n + 1) v = 0 :: toBits n v := by
  induction n generalizing v with
  | zero => interval_cases v; rfl
  | succ m ih =>
      have hu : v / 2 < 2 ^ m := by
        have : (2 : ℕ) ^ (m + 1) = 2 * 2 ^ m := by ring
        exact Nat.div_lt_of_lt_mul (by omega)
      calc toBits (m + 2) v = toBits (m + 1) (v / 2) ++ [v % 2] := rfl
      _ = (0 :: toBits m (v / 2)) ++ [v % 2] := by rw [ih hu]
      _ = 0 :: toBits (m + 1) v := rfl

theorem toBits_succ_high {n v : ℕ} (h : v < 2 ^ n) :
    toBits (n + 1) (2 ^ n + v) = 1 :: toBits n v := by
  induction n generalizing v with
  | zero => interval_cases v; rfl
  | succ m ih =>
      have hu : v / 2 < 2 ^ m := by
        have : (2 : ℕ) ^ (m + 1) = 2 * 2 ^ m := by ring
        exact Nat.div_lt_of_lt_mul (by omega)
      have hdiv : (2 ^ (m + 1) + v) / 2 = 2 ^ m + v / 2 := by
        have : (2 : ℕ) ^ (m + 1) = 2 * 2 ^ m := by ring
        omega
      have hmod : (2 ^ (m + 1) + v) % 2 = v % 2 := by
        have : (2 : ℕ) ^ (m + 1) = 2 * 2 ^ m := by ring
        omega
      calc toBits (m + 2) (2 ^ (m + 1) + v)
          = toBits (m + 1) (2 ^ m + v / 2) ++ [v % 2] := by
            simp only [toBits, hdiv, hmod]
      _ = (1 :: toBits m (v / 2)) ++ [v % 2] := by rw [ih hu]
      _ = 1 :: toBits (m + 1) v := rfl

theorem sectorVals_length (n p : ℕ) : (sectorVals n p).length = n.choose p := by
  induction n generalizing p with
  | zero =>
      cases p with
      | zero => rfl
      | succ q => rfl
  | succ m ih =>
      have hsplit : (2 : ℕ) ^ (m + 1) = 2 ^ m + 2 ^ m := by ring
      have hrange : List.range (2 ^ (m + 1)) =
          List.range (2 ^ m) ++ (List.range (2 ^ m)).map (2 ^ m + ·) := by
        rw [hsplit, List.range_add]
      have hlow : ∀ v ∈ List.range (2 ^ m),
          (decide ((toBits (m + 1) v).count 1 = p)) =
          (decide ((toBits m v).count 1 = p)) := by
        intro v hv
        rw [toBits_succ_low (List.mem_range.mp hv)]
        simp [List.count_cons]
      have hhigh : ∀ v ∈ List.range (2 ^ m),
          (decide ((toBits (m + 1) (2 ^ m + v)).count 1 = p)) =
          (decide ((toBits m v).count 1 + 1 = p)) := by
        intro v hv
        rw [toBits_succ_high (List.mem_range.mp hv)]
        simp [List.count_cons]
      rw [sectorVals, hrange, List.filter_append, List.length_append,
        List.filter_map, List.length_map, List.filter_congr hlow]
      have hcomp : ((List.range (2 ^ m)).filter
          ((fun v => decide ((toBits (m + 1) v).count 1 = p)) ∘ (2 ^ m + ·))).length =
          ((List.range (2 ^ m)).filter (fun v => decide ((toBits m v).count 1 + 1 = p))).length := by
        congr 1
        apply List.filter_congr
        intro v hv
        simpa using hhigh v hv
      rw [hcomp]
      cases p with
      | zero =>
          have hempty : ((List.range (2 ^ m)).filter
              (fun v => decide ((toBits m v).count 1 + 1 = 0))).length = 0 := by
            simp
          rw [hempty]
          have := ih 0
          rw [sectorVals] at this
          simp [this]
      | succ q =>
          have h1 := ih (q + 1)
          have h2 := ih q
          rw [sectorVals] at h1 h2
          have hq : ((List.range (2 ^ m)).filter
              (fun v => decide ((toBits m v).count 1 + 1 = q + 1))).length = m.choose q := by
            rw [← h2]
            congr 1
            apply List.filter_congr
            intro v hv
            simp
          rw [h1, hq]
          simp only [Nat.choose_succ_succ, Nat.succ_eq_add_one]
          omega

theorem sectorDesc_length (n p : ℕ) : (sectorDesc n p).length = n.choose p := by
  rw [sectorDesc, List.length_reverse, sectorVals_length]

theorem seed_mem_sectorVals {n p : ℕ} (h : p ≤ n) : 2 ^ p - 1 ∈ sectorVals n p := by
  rw [mem_sectorVals]
  constructor
  · have h1 : (2 : ℕ) ^ p ≤ 2 ^ n := Nat.pow_le_pow_right (by norm_num) h
    have h2 : (1 : ℕ) ≤ 2 ^ p := Nat.one_le_two_pow
    omega
  · rw [toBits_pow_sub_one p n h]
    simp [List.count_append, List.count_replicate]

/-- The seed value `2^p - 1` is the smallest element of the sector. -/
theorem sectorVals_head (n p : ℕ) (h : p ≤ n) :
    (sectorVals n p).getD 0 0 = 2 ^ p - 1 := by
  have hmem := seed_mem_sectorVals h
  have hlen : 0 < (sectorVals n p).length := by
    rw [sectorVals_length]; exact Nat.choose_pos h
  obtain ⟨x, t, hxt⟩ : ∃ x t, sectorVals n p = x :: t := by
    cases hcons : sectorVals n p with
    | nil => rw [hcons] at hlen; simp at hlen
    | cons x t => exact ⟨x, t, rfl⟩
  have hsorted := sectorVals_sorted n p
  rw [hxt] at hsorted hmem ⊢
  have hxmem : x ∈ sectorVals n p := by rw [hxt]; exact List.mem_cons_self x t
  have hxlow : 2 ^ p ≤ x + 1 := by
    rw [mem_sectorVals] at hxmem
    have := pow_le_succ_of_count n x
    rw [hxmem.2] at this
    exact this
  rcases List.mem_cons.mp hmem with heq | hmem'
  · simp [heq]
  · have := (List.pairwise_cons.mp hsorted).1 _ hmem'
    omega

theorem getD_eq_getElem_nat {l : List ℕ} {j : ℕ} (h : j < l.length) : l.getD j 0 = l[j] := by
  rw [List.getD_eq_getElem?_getD, List.getElem?_eq_getElem h]
  rfl

theorem sectorDesc_getD_mem {n p j : ℕ} (hj : j < (sectorDesc n p).length) :
    (sectorDesc n p).getD j 0 ∈ sectorDesc n p := by
  rw [getD_eq_getElem_nat hj]
  exact List.getElem_mem hj

theorem sectorDesc_getD_lt {n p j : ℕ} (hj : j < (sectorDesc n p).length) :
    (sectorDesc n p).getD j 0 < 2 ^ n :=
  (mem_sectorDesc.mp (sectorDesc_getD_mem hj)).1

theorem sectorDesc_getD_inj {n p i j : ℕ} (hi : i < (sectorDesc n p).length)
    (hj : j < (sectorDesc n p).length)
    (h : (sectorDesc n p).getD i 0 = (sectorDesc n p).getD j 0) : i = j := by
  rw [getD_eq_getElem_nat hi, getD_eq_getElem_nat hj] at h
  exact ((sectorDesc_nodup n p).getElem_inj_iff).mp h

theorem sectorDesc_getD_last (n p : ℕ) (hp : p ≤ n) :
    (sectorDesc n p).getD ((sectorDesc n p).length - 1) 0 = 2 ^ p - 1 := by
  have hlen : 0 < (sectorDesc n p).length := by
    rw [sectorDesc_length]; exact Nat.choose_pos hp
  have h1 : (sectorDesc n p).length - 1 < (sectorDesc n p).length := by omega
  rw [getD_eq_getElem_nat h1]
  have hv : 0 < (sectorVals n p).length := by
    rw [sectorVals_length]; exact Nat.choose_pos hp
  have hrev : (sectorDesc n p)[(sectorDesc n p).length - 1] = (sectorVals n p)[0] := by
    simp only [sectorDesc] at h1 ⊢
    rw [List.getElem_reverse]
    congr 1
    simp only [List.length_reverse] at h1 ⊢
    omega
  rw [hrev, ← getD_eq_getElem_nat hv, sectorVals_head n p hp]

/-- The step lemma: on a sector arrangement, the modelled permutation step
advances to the next sector value in the cyclic descending enumeration. -/
theorem bp_sectorDesc {n p j : ℕ} (hj : j < (sectorDesc n p).length) :
    binary_permutation (toBits n ((sectorDesc n p).getD j 0)) =
      if (sectorDesc n p).length ≤ 1 then none
      else some (toBits n ((sectorDesc n p).getD
        (((sectorDesc n p).indexOf ((sectorDesc n p).getD j 0) + 1) %
          (sectorDesc n p).length) 0)) := by
  have hmem := sectorDesc_getD_mem hj
  have hd := mem_sectorDesc.mp hmem
  have hlen : (toBits n ((sectorDesc n p).getD j 0)).length = n := toBits_length _ _
  have hcnt : (toBits n ((sectorDesc n p).getD j 0)).count 1 = p := hd.2
  have hdec : bin_to_dec (toBits n ((sectorDesc n p).getD j 0)) =
      (sectorDesc n p).getD j 0 := bin_to_dec_toBits n _ hd.1
  simp only [binary_permutation, hlen, hcnt, hdec]

theorem indexOf_sectorDesc_getD {n p j : ℕ} (hj : j < (sectorDesc n p).length) :
    (sectorDesc n p).indexOf ((sectorDesc n p).getD j 0) = j := by
  rw [getD_eq_getElem_nat hj]
  exact List.indexOf_getElem (sectorDesc_nodup n p) j hj

theorem dinsert_of_fresh {d : List (ℕ × ℕ)} {k v : ℕ} (h : ∀ q ∈ d, q.1 ≠ k) :
    dinsert d k v = d ++ [(k, v)] := by
  rw [dinsert, if_neg]
  simp only [List.any_eq_true, decide_eq_true_eq, not_exists, not_and]
  exact h

theorem ccbStep_some {dim : ℕ} {st : List ℕ × CCB} {i : ℕ} {b : List ℕ}
    (h : binary_permutation st.1 = some b) :
    ccbStep dim st i = (b, { st.2 with
      basis_set := st.2.basis_set ++ [b]
      to_diag := dinsert st.2.to_diag (dim - bin_to_dec b - 1) i
      to_ord := dinsert st.2.to_ord i (dim - bin_to_dec b - 1) }) := by
  simp only [ccbStep, h]

theorem ccbStep_none {dim : ℕ} {st : List ℕ × CCB} {i : ℕ}
    (h : binary_permutation st.1 = none) :
    ccbStep dim st i = (st.1, { st.2 with
      basis_set := st.2.basis_set ++ [st.1]
      to_diag := dinsert st.2.to_diag (dim - bin_to_dec st.1 - 1) i
      to_ord := dinsert st.2.to_ord i (dim - bin_to_dec st.1 - 1)
      exhaust := st.2.exhaust + 1 }) := by
  simp only [ccbStep, h]

/-- Loop invariant of the enumeration in `create_complete_basis`: after `i`
iterations from the seed (the smallest sector value, stored last in the
descending enumeration), the recorded arrangements are the first `i`
entries of the descending enumeration, both dicts hold the corresponding
reflected entries in insertion order, and the exhaustion signal has been
caught `i` times when the sector is a singleton and never otherwise. -/
theorem ccb_fold_inv (n p : ℕ) (hp : p ≤ n) :
    ∀ i, i ≤ (sectorDesc n p).length →
    (List.range i).foldl (ccbStep (2 ^ n))
      (toBits n ((sectorDesc n p).getD ((sectorDesc n p).length - 1) 0), ⟨[], [], [], 0⟩) =
    (toBits n ((sectorDesc n p).getD
        (((sectorDesc n p).length - 1 + i) % (sectorDesc n p).length) 0),
     ⟨(List.range i).map (fun j => toBits n ((sectorDesc n p).getD j 0)),
      (List.range i).map (fun j => (2 ^ n - (sectorDesc n p).getD j 0 - 1, j)),
      (List.range i).map (fun j => (j, 2 ^ n - (sectorDesc n p).getD j 0 - 1)),
      if (sectorDesc n p).length ≤ 1 then i else 0⟩) := by
  have hb : 0 < (sectorDesc n p).length := by
    rw [sectorDesc_length]; exact Nat.choose_pos hp
  intro i
  induction i with
  | zero =>
      intro _
      rw [Nat.add_zero, Nat.mod_eq_of_lt (by omega)]
      simp
  | succ i ih =>
      intro hi
      have hii : i ≤ (sectorDesc n p).length := by omega
      have hilt : i < (sectorDesc n p).length := by omega
      rw [List.range_succ, List.foldl_append, ih hii, List.foldl_cons, List.foldl_nil]
      have hjlt : ((sectorDesc n p).length - 1 + i) % (sectorDesc n p).length <
          (sectorDesc n p).length := Nat.mod_lt _ hb
      have hbp := bp_sectorDesc hjlt
      rw [indexOf_sectorDesc_getD hjlt] at hbp
      by_cases hble : (sectorDesc n p).length ≤ 1
      · -- singleton sector: the permutation signals exhaustion on every step
        have hb1 : (sectorDesc n p).length = 1 := by omega
        have hi0 : i = 0 := by omega
        rw [if_pos hble] at hbp
        rw [ccbStep_none hbp]
        subst hi0
        have hdec : bin_to_dec (toBits n ((sectorDesc n p).getD
            (((sectorDesc n p).length - 1 + 0) % (sectorDesc n p).length) 0)) =
            (sectorDesc n p).getD (((sectorDesc n p).length - 1 + 0) %
              (sectorDesc n p).length) 0 :=
          bin_to_dec_toBits n _ (sectorDesc_getD_lt hjlt)
        simp only [hb1, hdec, Prod.mk.injEq, CCB.mk.injEq]
        have hdec0 : bin_to_dec (toBits n ((sectorDesc n p).getD 0 0)) =
            (sectorDesc n p).getD 0 0 :=
          bin_to_dec_toBits n _ (sectorDesc_getD_lt (by omega))
        simp only [List.getD_eq_getElem?_getD] at hdec0
        norm_num [dinsert, hdec0]
      · -- at least two arrangements: the step advances along the cycle
        rw [if_neg hble] at hbp
        have hmod : (((sectorDesc n p).length - 1 + i) % (sectorDesc n p).length + 1) %
            (sectorDesc n p).length = i := by
          have e2 : 1 % (sectorDesc n p).length = 1 := Nat.mod_eq_of_lt (by omega)
          calc (((sectorDesc n p).length - 1 + i) % (sectorDesc n p).length + 1) %
              (sectorDesc n p).length
              = (((sectorDesc n p).length - 1 + i) % (sectorDesc n p).length +
                  1 % (sectorDesc n p).length) % (sectorDesc n p).length := by rw [e2]
          _ = ((sectorDesc n p).length - 1 + i + 1) % (sectorDesc n p).length :=
              (Nat.add_mod _ _ _).symm
          _ = ((sectorDesc n p).length + i) % (sectorDesc n p).length := by congr 1; omega
          _ = i := by rw [Nat.add_mod_left]; exact Nat.mod_eq_of_lt hilt
        rw [hmod] at hbp
        rw [ccbStep_some hbp]
        have hdec : bin_to_dec (toBits n ((sectorDesc n p).getD i 0)) =
            (sectorDesc n p).getD i 0 := bin_to_dec_toBits n _ (sectorDesc_getD_lt hilt)
        have hmod2 : ((sectorDesc n p).length - 1 + (i + 1)) % (sectorDesc n p).length = i := by
          calc ((sectorDesc n p).length - 1 + (i + 1)) % (sectorDesc n p).length
              = ((sectorDesc n p).length + i) % (sectorDesc n p).length := by congr 1; omega
          _ = i := by rw [Nat.add_mod_left]; exact Nat.mod_eq_of_lt hilt
        have hfresh_diag : ∀ q ∈ (List.range i).map
            (fun j => (2 ^ n - (sectorDesc n p).getD j 0 - 1, j)),
            q.1 ≠ 2 ^ n - (sectorDesc n p).getD i 0 - 1 := by
          intro q hq
          obtain ⟨j, hj, rfl⟩ := List.mem_map.mp hq
          have hji : j < i := List.mem_range.mp hj
          intro heq
          have hjb : j < (sectorDesc n p).length := by omega
          have h1 := sectorDesc_getD_lt hjb
          have h2 := sectorDesc_getD_lt hilt
          have : (sectorDesc n p).getD j 0 = (sectorDesc n p).getD i 0 := by omega
          have := sectorDesc_getD_inj hjb hilt this
          omega
        have hfresh_ord : ∀ q ∈ (List.range i).map
            (fun j => (j, 2 ^ n - (sectorDesc n p).getD j 0 - 1)),
            q.1 ≠ i := by
          intro q hq
          obtain ⟨j, hj, rfl⟩ := List.mem_map.mp hq
          have hji : j < i := List.mem_range.mp hj
          omega
        simp only [hdec, hmod2, dinsert_of_fresh hfresh_diag, dinsert_of_fresh hfresh_ord,
          List.range_succ, List.map_append, List.map_cons, List.map_nil,
          Prod.mk.injEq, CCB.mk.injEq, if_neg hble]

/-- Full characterization of the enumeration on valid `spin_ups`. -/
theorem ccbOf_char (N : ℕ) (su : ℤ) (h0 : 0 ≤ su) (hN : su ≤ (N : ℤ)) :
    ccbOf N su =
      ⟨(List.range (N.choose su.toNat)).map
          (fun j => toBits N ((sectorDesc N su.toNat).getD j 0)),
       (List.range (N.choose su.toNat)).map
          (fun j => (2 ^ N - (sectorDesc N su.toNat).getD j 0 - 1, j)),
       (List.range (N.choose su.toNat)).map
          (fun j => (j, 2 ^ N - (sectorDesc N su.toNat).getD j 0 - 1)),
       if N.choose su.toNat ≤ 1 then N.choose su.toNat else 0⟩ := by
  have hp : su.toNat ≤ N := by omega
  have hseed : List.replicate ((N : ℤ) - su).toNat 0 ++ List.replicate su.toNat 1 =
      toBits N ((sectorDesc N su.toNat).getD ((sectorDesc N su.toNat).length - 1) 0) := by
    rw [sectorDesc_getD_last N su.toNat hp, toBits_pow_sub_one su.toNat N hp]
    congr 2
    omega
  have hblk : chooseInt N su = N.choose su.toNat := by
    rw [chooseInt, if_pos ⟨h0, hN⟩]
  have hlen : (sectorDesc N su.toNat).length = N.choose su.toNat := sectorDesc_length _ _
  have hinv := ccb_fold_inv N su.toNat hp (sectorDesc N su.toNat).length (le_refl _)
  simp only [ccbOf]
  rw [hblk, hseed, ← hlen, hinv]

theorem create_complete_basis_char (N : ℕ) (j : ℚ)
    (h0 : 0 ≤ pythonRound ((N : ℚ) / 2 + j)) (hN : pythonRound ((N : ℚ) / 2 + j) ≤ (N : ℤ)) :
    create_complete_basis N j =
      ⟨(List.range (N.choose (pythonRound ((N : ℚ) / 2 + j)).toNat)).map
          (fun i => toBits N ((sectorDesc N (pythonRound ((N : ℚ) / 2 + j)).toNat).getD i 0)),
       (List.range (N.choose (pythonRound ((N : ℚ) / 2 + j)).toNat)).map
          (fun i => (2 ^ N - (sectorDesc N (pythonRound ((N : ℚ) / 2 + j)).toNat).getD i 0 - 1, i)),
       (List.range (N.choose (pythonRound ((N : ℚ) / 2 + j)).toNat)).map
          (fun i => (i, 2 ^ N - (sectorDesc N (pythonRound ((N : ℚ) / 2 + j)).toNat).getD i 0 - 1)),
       if N.choose (pythonRound ((N : ℚ) / 2 + j)).toNat ≤ 1
       then N.choose (pythonRound ((N : ℚ) / 2 + j)).toNat else 0⟩ := by
  rw [create_complete_basis]
  exact ccbOf_char N _ h0 hN

/-! ### Lookup lemmas for the dict embedding -/

theorem dget_append (d₁ d₂ : List (ℕ × ℕ)) (k : ℕ) :
    dget (d₁ ++ d₂) k = (dget d₁ k).or (dget d₂ k) := by
  rw [dget, List.find?_append, dget, dget]
  cases d₁.find? (fun q => q.1 = k) <;> simp

theorem dget_singleton (k v i : ℕ) :
    dget [(k, v)] i = if k = i then some v else none := by
  by_cases h : k = i <;> simp [dget, List.find?, h]

theorem dget_nil (k : ℕ) : dget [] k = none := rfl

theorem dget_ord_range (b : ℕ) (r : ℕ → ℕ) (i : ℕ) :
    dget ((List.range b).map (fun j => (j, r j))) i =
      if i < b then some (r i) else none := by
  induction b with
  | zero => simp [dget]
  | succ b ih =>
      rw [List.range_succ, List.map_append, List.map_cons, List.map_nil, dget_append, ih,
        dget_singleton]
      by_cases h : i < b
      · simp [if_pos h, Nat.lt_succ_of_lt h, (by omega : ¬ b = i)]
      · by_cases h2 : b = i
        · subst h2
          simp [h]
        · simp only [if_neg h, if_neg h2, Option.none_or]
          rw [if_neg (by omega : ¬ i < b + 1)]

theorem dget_key_range_none {b : ℕ} {κ : ℕ → ℕ} {g : ℕ} (h : ∀ j, j < b → κ j ≠ g) :
    dget ((List.range b).map (fun j => (κ j, j))) g = none := by
  induction b with
  | zero => simp [dget]
  | succ b ih =>
      rw [List.range_succ, List.map_append, List.map_cons, List.map_nil, dget_append,
        ih (fun j hj => h j (by omega)), dget_singleton, if_neg (h b (by omega))]
      rfl

theorem dget_key_range_eq {b : ℕ} {κ : ℕ → ℕ} {i : ℕ} (hi : i < b)
    (hinj : ∀ j, j < b → κ j = κ i → j = i) :
    dget ((List.range b).map (fun j => (κ j, j))) (κ i) = some i := by
  induction b with
  | zero => omega
  | succ b ih =>
      rw [List.range_succ, List.map_append, List.map_cons, List.map_nil, dget_append]
      by_cases h : i < b
      · rw [ih h (fun j hj => hinj j (by omega))]
        rfl
      · have hib : i = b := by omega
        subst hib
        have hnone : dget ((List.range i).map (fun j => (κ j, j))) (κ i) = none := by
          apply dget_key_range_none
          intro j hj heq
          have := hinj j (by omega) heq
          omega
        rw [hnone, dget_singleton, if_pos rfl]
        rfl

/-! ### Evaluating the Python rounding on the magnetization arguments -/

theorem pythonRound_intCast (z : ℤ) : pythonRound (z : ℚ) = z := by
  rw [pythonRound]
  simp only [Int.floor_intCast, sub_self]
  norm_num

theorem pythonRound_of_eq_intCast {x : ℚ} {z : ℤ} (h : x = (z : ℚ)) : pythonRound x = z := by
  rw [h, pythonRound_intCast]

theorem create_complete_basis_eval (N : ℕ) (j : ℚ) (su : ℤ)
    (h : (N : ℚ) / 2 + j = (su : ℚ)) : create_complete_basis N j = ccbOf N su := by
  rw [create_complete_basis, pythonRound_of_eq_intCast h]

/-! ### Claim C1 -/

/-- C1 counterexample: for `N = 3`, `current_j = 1/2` (so `spin_ups = 2`),
the global index `g = 6` has exactly `spin_ups` ones in its 3-bit
representation, yet `to_diag` holds no entry for key `6` (its keys are the
reflected indices `dim - g - 1`, which carry `N - spin_ups` ones), so
`to_ord[to_diag[g]] == g` fails for this in-sector `g` (a `KeyError` in
the source). -/
theorem claim_C1_counterexample :
    pythonRound (((3 : ℕ) : ℚ) / 2 + 1/2) = 2 ∧
    (toBits 3 6).count 1 = 2 ∧
    dget (create_complete_basis 3 (1/2)).to_diag 6 = none := by
  refine ⟨pythonRound_of_eq_intCast (by norm_num), by decide, ?_⟩
  rw [create_complete_basis_eval 3 (1/2) 2 (by norm_num)]
  decide

/-- C1 (amended): for every valid `(N, current_j)`, `to_ord` and `to_diag`
are mutually inverse bijections between the sector-local indices
`[0, blksize)` and the recorded reflected global indices: for every local
`i < blksize`, `to_diag[to_ord[i]] = i`, and for every global index `g`
with exactly `N - spin_ups` ones in its `N`-bit representation (the
reflections `dim - d - 1` of the sector's states `d`),
`to_ord[to_diag[g]] = g`. -/
theorem claim_C1 (N : ℕ) (j : ℚ)
    (h0 : 0 ≤ pythonRound ((N : ℚ) / 2 + j))
    (hN : pythonRound ((N : ℚ) / 2 + j) ≤ (N : ℤ)) :
    (∀ i, i < N.choose (pythonRound ((N : ℚ) / 2 + j)).toNat →
      ∃ g, dget (create_complete_basis N j).to_ord i = some g ∧
        dget (create_complete_basis N j).to_diag g = some i) ∧
    (∀ g, g < 2 ^ N →
      (toBits N g).count 1 = N - (pythonRound ((N : ℚ) / 2 + j)).toNat →
      ∃ i, dget (create_complete_basis N j).to_diag g = some i ∧
        dget (create_complete_basis N j).to_ord i = some g) := by
  rw [create_complete_basis_char N j h0 hN]
  set p := (pythonRound ((N : ℚ) / 2 + j)).toNat with hpdef
  have hp : p ≤ N := by omega
  have hlen : (sectorDesc N p).length = N.choose p := sectorDesc_length _ _
  have hinj : ∀ a, a < N.choose p → ∀ c, c < N.choose p →
      2 ^ N - (sectorDesc N p).getD a 0 - 1 = 2 ^ N - (sectorDesc N p).getD c 0 - 1 →
      a = c := by
    intro a ha c hc h
    have ha' : a < (sectorDesc N p).length := by omega
    have hc' : c < (sectorDesc N p).length := by omega
    have h1 := sectorDesc_getD_lt ha'
    have h2 := sectorDesc_getD_lt hc'
    exact sectorDesc_getD_inj ha' hc' (by omega)
  constructor
  · intro i hi
    refine ⟨2 ^ N - (sectorDesc N p).getD i 0 - 1, ?_, ?_⟩
    · rw [dget_ord_range, if_pos hi]
    · exact dget_key_range_eq hi (fun c hc => hinj c hc i hi)
  · intro g hg hcnt
    have hmem : 2 ^ N - 1 - g ∈ sectorDesc N p := by
      rw [mem_sectorDesc]
      refine ⟨by omega, ?_⟩
      rw [toBits_compl N g hg, count_one_map_compl _ (toBits_digit_lt_two N g),
        toBits_length, hcnt]
      omega
    obtain ⟨i, hi, hgi⟩ := List.mem_iff_getElem.mp hmem
    have hib : i < N.choose p := by omega
    have hkey : 2 ^ N - (sectorDesc N p).getD i 0 - 1 = g := by
      rw [getD_eq_getElem_nat hi, hgi]
      omega
    refine ⟨i, ?_, ?_⟩
    · rw [← hkey]
      exact dget_key_range_eq hib (fun c hc => hinj c hc i hib)
    · rw [dget_ord_range, if_pos hib, hkey]

/-- C1 witness: the amended inverse-bijection property instantiated at
`N = 2`, `current_j = 0`. -/
theorem claim_C1_witness :
    (0 ≤ pythonRound (((2 : ℕ) : ℚ) / 2 + 0) ∧
      pythonRound (((2 : ℕ) : ℚ) / 2 + 0) ≤ ((2 : ℕ) : ℤ)) ∧
    ((∀ i, i < Nat.choose 2 (pythonRound (((2 : ℕ) : ℚ) / 2 + 0)).toNat →
      ∃ g, dget (create_complete_basis 2 0).to_ord i = some g ∧
        dget (create_complete_basis 2 0).to_diag g = some i) ∧
    (∀ g, g < 2 ^ 2 →
      (toBits 2 g).count 1 = 2 - (pythonRound (((2 : ℕ) : ℚ) / 2 + 0)).toNat →
      ∃ i, dget (create_complete_basis 2 0).to_diag g = some i ∧
        dget (create_complete_basis 2 0).to_ord i = some g)) := by
  have e : pythonRound (((2 : ℕ) : ℚ) / 2 + 0) = 1 := pythonRound_of_eq_intCast (by norm_num)
  refine ⟨⟨by rw [e]; decide, by rw [e]; decide⟩, claim_C1 2 0 (by rw [e]; decide) (by rw [e]; decide)⟩

/-! ### Claim C4 -/

/-- C4 counterexample: for `N = 2`, `current_j = 0`, the seed arrangement
`[0]*spin_downs + [1]*spin_ups = [0,1]` is not the arrangement recorded at
sector-local index 0: the loop applies the permutation step before the
first recording, so the enumeration starts at `[1,0]`. -/
theorem claim_C4_counterexample :
    pythonRound (((2 : ℕ) : ℚ) / 2 + 0) = 1 ∧
    (create_complete_basis 2 0).basis_set.head? ≠
      some (List.replicate 1 0 ++ List.replicate 1 1) := by
  refine ⟨pythonRound_of_eq_intCast (by norm_num), ?_⟩
  rw [create_complete_basis_eval 2 0 1 (by norm_num)]
  decide

/-- C4 (amended): for every valid `(N, current_j)`, the loop applies the
binary-permutation step `blksize` times, once before each recording (not
`blksize - 1` times after recording the seed), so the canonical seed
arrangement `[0]*spin_downs + [1]*spin_ups` is recorded last, at
sector-local index `blksize - 1`; `basis_set` has length `C(N, spin_ups)`
and every recorded arrangement has exactly `spin_ups` ones and length `N`. -/
theorem claim_C4 (N : ℕ) (j : ℚ)
    (h0 : 0 ≤ pythonRound ((N : ℚ) / 2 + j))
    (hN : pythonRound ((N : ℚ) / 2 + j) ≤ (N : ℤ)) :
    (create_complete_basis N j).basis_set.length =
      N.choose (pythonRound ((N : ℚ) / 2 + j)).toNat ∧
    (∀ l ∈ (create_complete_basis N j).basis_set,
      l.count 1 = (pythonRound ((N : ℚ) / 2 + j)).toNat ∧ l.length = N) ∧
    (create_complete_basis N j).basis_set.getLast? =
      some (List.replicate (N - (pythonRound ((N : ℚ) / 2 + j)).toNat) 0 ++
        List.replicate (pythonRound ((N : ℚ) / 2 + j)).toNat 1) := by
  rw [create_complete_basis_char N j h0 hN]
  set p := (pythonRound ((N : ℚ) / 2 + j)).toNat with hpdef
  have hp : p ≤ N := by omega
  have hlen : (sectorDesc N p).length = N.choose p := sectorDesc_length _ _
  have hb : 0 < N.choose p := Nat.choose_pos hp
  refine ⟨by simp, ?_, ?_⟩
  · intro l hl
    simp only [List.mem_map, List.mem_range] at hl
    obtain ⟨i, hi, rfl⟩ := hl
    have hmem := sectorDesc_getD_mem (n := N) (p := p) (j := i) (by omega)
    exact ⟨(mem_sectorDesc.mp hmem).2, toBits_length _ _⟩
  · rw [List.getLast?_eq_getElem?]
    simp only [List.length_map, List.length_range, List.getElem?_map,
      List.getElem?_range (show N.choose p - 1 < N.choose p by omega), Option.map_some']
    have hlast : (sectorDesc N p).getD (N.choose p - 1) 0 = 2 ^ p - 1 := by
      rw [← hlen] at *
      exact sectorDesc_getD_last N p hp
    rw [hlast, toBits_pow_sub_one p N hp]

/-- C4 witness: the amended enumeration shape at `N = 2`, `current_j = 0`. -/
theorem claim_C4_witness :
    (0 ≤ pythonRound (((2 : ℕ) : ℚ) / 2 + 0) ∧
      pythonRound (((2 : ℕ) : ℚ) / 2 + 0) ≤ ((2 : ℕ) : ℤ)) ∧
    ((create_complete_basis 2 0).basis_set.length =
      Nat.choose 2 (pythonRound (((2 : ℕ) : ℚ) / 2 + 0)).toNat ∧
    (∀ l ∈ (create_complete_basis 2 0).basis_set,
      l.count 1 = (pythonRound (((2 : ℕ) : ℚ) / 2 + 0)).toNat ∧ l.length = 2) ∧
    (create_complete_basis 2 0).basis_set.getLast? =
      some (List.replicate (2 - (pythonRound (((2 : ℕ) : ℚ) / 2 + 0)).toNat) 0 ++
        List.replicate (pythonRound (((2 : ℕ) : ℚ) / 2 + 0)).toNat 1)) := by
  have e : pythonRound (((2 : ℕ) : ℚ) / 2 + 0) = 1 := pythonRound_of_eq_intCast (by norm_num)
  refine ⟨⟨by rw [e]; decide, by rw [e]; decide⟩, claim_C4 2 0 (by rw [e]; decide) (by rw [e]; decide)⟩

/-! ### Claim C5 -/

/-- C5 counterexample: for `N = 2`, `current_j = 0` the enumeration order
is `[1,0]` then `[0,1]`, not `[0,1]` then `[1,0]` as claimed (the claimed
order is inconsistent with the recorded maps `to_ord = {0:1, 1:2}`, since
recording `[0,1]` first would give `to_ord = {0:2, 1:1}`). -/
theorem claim_C5_counterexample :
    (create_complete_basis 2 0).basis_set ≠ [[0, 1], [1, 0]] := by
  rw [create_complete_basis_eval 2 0 1 (by norm_num)]
  decide

/-- C5 (amended): for `N = 2`, `current_j = 0`: `spin_ups = 1`,
`blksize = 2`, the basis states are `[1,0]` and `[0,1]` in that
enumeration order, `to_ord = {0: 1, 1: 2}` and `to_diag = {1: 0, 2: 1}`,
where each arrangement's global index is its value as a base-2 number
(most-significant digit first: `[1,0] = 2`, `[0,1] = 1`) and the recorded
entries use the reflection `dim - global_index - 1`. -/
theorem claim_C5 :
    pythonRound (((2 : ℕ) : ℚ) / 2 + 0) = 1 ∧
    chooseInt 2 1 = 2 ∧
    create_complete_basis 2 0 =
      ⟨[[1, 0], [0, 1]], [(1, 0), (2, 1)], [(0, 1), (1, 2)], 0⟩ ∧
    bin_to_dec [1, 0] = 2 ∧ bin_to_dec [0, 1] = 1 ∧
    2 ^ 2 - bin_to_dec [1, 0] - 1 = 1 ∧ 2 ^ 2 - bin_to_dec [0, 1] - 1 = 2 := by
  refine ⟨pythonRound_of_eq_intCast (by norm_num), by decide, ?_,
    by decide, by decide, by decide, by decide⟩
  rw [create_complete_basis_eval 2 0 1 (by norm_num)]
  decide

/-! ### Claim C6 -/

/-- C6 counterexample: for `N = 2`, `current_j = 2` the value
`spin_ups = 3` lies outside `[0, N]`, yet `create_complete_basis` raises
no domain error: it returns normally, with an empty basis and empty index
maps. -/
theorem claim_C6_counterexample :
    pythonRound (((2 : ℕ) : ℚ) / 2 + 2) = 3 ∧
    create_complete_basis 2 2 = ⟨[], [], [], 0⟩ := by
  refine ⟨pythonRound_of_eq_intCast (by norm_num), ?_⟩
  rw [create_complete_basis_eval 2 2 3 (by norm_num)]
  decide

/-- C6 (amended): `create_complete_basis` performs no input validation and
raises no domain error: a non-integer `0.5*N + current_j` is silently
rounded (the result depends on `current_j` only through
`round(0.5*N + current_j)`), and an out-of-range `spin_ups` silently
yields an empty basis with empty index maps. -/
theorem claim_C6 :
    (∀ (N : ℕ) (j₁ j₂ : ℚ),
      pythonRound ((N : ℚ) / 2 + j₁) = pythonRound ((N : ℚ) / 2 + j₂) →
      create_complete_basis N j₁ = create_complete_basis N j₂) ∧
    (∀ (N : ℕ) (j : ℚ),
      (pythonRound ((N : ℚ) / 2 + j) < 0 ∨ (N : ℤ) < pythonRound ((N : ℚ) / 2 + j)) →
      create_complete_basis N j = ⟨[], [], [], 0⟩) := by
  constructor
  · intro N j₁ j₂ h
    rw [create_complete_basis, create_complete_basis, h]
  · intro N j h
    rw [create_complete_basis]
    have hblk : chooseInt N (pythonRound ((N : ℚ) / 2 + j)) = 0 := by
      rw [chooseInt, if_neg (by omega)]
    simp only [ccbOf, hblk, List.range_zero, List.foldl_nil]

/-- C6 witness: `current_j = 0.3` is silently rounded to the result of
`current_j = 0` for `N = 2`, and the out-of-range `current_j = 2` yields
the empty result. -/
theorem claim_C6_witness :
    pythonRound (((2 : ℕ) : ℚ) / 2 + 3/10) = pythonRound (((2 : ℕ) : ℚ) / 2 + 0) ∧
    ((2 : ℕ) : ℤ) < pythonRound (((2 : ℕ) : ℚ) / 2 + 2) ∧
    create_complete_basis 2 (3/10) = create_complete_basis 2 0 ∧
    create_complete_basis 2 2 = ⟨[], [], [], 0⟩ := by
  have h1 : pythonRound (((2 : ℕ) : ℚ) / 2 + 3/10) = 1 := by
    have hx : ((2 : ℕ) : ℚ) / 2 + 3/10 = 13/10 := by norm_num
    rw [hx, pythonRound]
    have hf : ⌊(13/10 : ℚ)⌋ = 1 := by
      rw [Int.floor_eq_iff]
      norm_num
    rw [hf]
    norm_num
  have h2 : pythonRound (((2 : ℕ) : ℚ) / 2 + 0) = 1 := pythonRound_of_eq_intCast (by norm_num)
  have h3 : pythonRound (((2 : ℕ) : ℚ) / 2 + 2) = 3 := pythonRound_of_eq_intCast (by norm_num)
  exact ⟨by rw [h1, h2], by rw [h3]; decide,
    claim_C6.1 2 (3/10) 0 (by rw [h1, h2]),
    claim_C6.2 2 2 (by rw [h3]; decide)⟩

/-! ### Claim C7 -/

theorem one_lt_length_of_two_mem {l : List ℕ} {a c : ℕ} (ha : a ∈ l) (hc : c ∈ l)
    (hne : a ≠ c) : 1 < l.length := by
  cases l with
  | nil => simp at ha
  | cons x t =>
      cases t with
      | nil =>
          rw [List.mem_singleton] at ha hc
          exact absurd (ha.trans hc.symm) hne
      | cons y s => simp [List.length_cons]

theorem toBits_double (n v : ℕ) : toBits (n + 1) (2 * v) = toBits n v ++ [0] := by
  simp only [toBits]
  congr 2
  · omega
  · omega

/-- The sector is a singleton exactly for the fully polarized sectors. -/
theorem choose_le_one_iff {N p : ℕ} (hp : p ≤ N) :
    N.choose p ≤ 1 ↔ (p = 0 ∨ p = N) := by
  constructor
  · intro h
    by_contra hcon
    push_neg at hcon
    have hp1 : 1 ≤ p := by omega
    have hpN : p + 1 ≤ N := by omega
    obtain ⟨m, rfl⟩ : ∃ m, N = m + 1 := ⟨N - 1, by omega⟩
    have hpm : p ≤ m := by omega
    have hv1 : 2 ^ p - 1 ∈ sectorVals (m + 1) p := seed_mem_sectorVals hp
    have hv2 : 2 * (2 ^ p - 1) ∈ sectorVals (m + 1) p := by
      rw [mem_sectorVals]
      constructor
      · have h1 : (2 : ℕ) ^ p ≤ 2 ^ m := Nat.pow_le_pow_right (by norm_num) hpm
        have h2 : (2 : ℕ) ^ (m + 1) = 2 * 2 ^ m := by ring
        have h3 : (1 : ℕ) ≤ 2 ^ p := Nat.one_le_two_pow
        omega
      · rw [toBits_double, List.count_append, toBits_pow_sub_one p m hpm]
        simp [List.count_append, List.count_replicate]
    have hne : 2 ^ p - 1 ≠ 2 * (2 ^ p - 1) := by
      have : (1 : ℕ) ≤ 2 ^ p - 1 := by
        have := Nat.one_lt_two_pow_iff.mpr (show p ≠ 0 by omega)
        omega
      omega
    have := one_lt_length_of_two_mem hv1 hv2 hne
    rw [sectorVals_length] at this
    omega
  · rintro (rfl | rfl)
    · simp
    · simp

/-- C7 counterexample: for the valid input `N = 2`, `current_j = 0`
(`blksize = 2`), the exhaustion signal is never raised during the full
enumeration, not raised exactly once as claimed. -/
theorem claim_C7_counterexample :
    0 ≤ pythonRound (((2 : ℕ) : ℚ) / 2 + 0) ∧
    pythonRound (((2 : ℕ) : ℚ) / 2 + 0) ≤ ((2 : ℕ) : ℤ) ∧
    (create_complete_basis 2 0).exhaust = 0 := by
  have e : pythonRound (((2 : ℕ) : ℚ) / 2 + 0) = 1 := pythonRound_of_eq_intCast (by norm_num)
  refine ⟨by rw [e]; decide, by rw [e]; decide, ?_⟩
  rw [create_complete_basis_eval 2 0 1 (by norm_num)]
  decide

/-- C7 (amended): for every valid `(N, current_j)`, the exhaustion signal
is caught (and ignored, the `except` clause catching only that signal)
exactly once when the sector is fully polarized — `spin_ups = 0` or
`spin_ups = N`, i.e. `current_j = ±N/2`, where `blksize = 1` and the
signal occurs on the single enumeration step — and never otherwise. -/
theorem claim_C7 (N : ℕ) (j : ℚ)
    (h0 : 0 ≤ pythonRound ((N : ℚ) / 2 + j))
    (hN : pythonRound ((N : ℚ) / 2 + j) ≤ (N : ℤ)) :
    (create_complete_basis N j).exhaust =
      if pythonRound ((N : ℚ) / 2 + j) = 0 ∨ pythonRound ((N : ℚ) / 2 + j) = (N : ℤ)
      then 1 else 0 := by
  rw [create_complete_basis_char N j h0 hN]
  set p := (pythonRound ((N : ℚ) / 2 + j)).toNat with hpdef
  have hp : p ≤ N := by omega
  have hiff := choose_le_one_iff hp
  by_cases h : pythonRound ((N : ℚ) / 2 + j) = 0 ∨ pythonRound ((N : ℚ) / 2 + j) = (N : ℤ)
  · have hpn : p = 0 ∨ p = N := by omega
    have hle : N.choose p ≤ 1 := hiff.mpr hpn
    have hpos : 0 < N.choose p := Nat.choose_pos hp
    simp only [if_pos h, if_pos hle]
    omega
  · have hpn : ¬ (p = 0 ∨ p = N) := by omega
    have hle : ¬ N.choose p ≤ 1 := fun hc => hpn (hiff.mp hc)
    simp only [if_neg h, if_neg hle]

/-- C7 witness: for `N = 1`, `current_j = 1/2` (fully polarized,
`blksize = 1`) the signal is caught exactly once. -/
theorem claim_C7_witness :
    (0 ≤ pythonRound (((1 : ℕ) : ℚ) / 2 + 1/2) ∧
      pythonRound (((1 : ℕ) : ℚ) / 2 + 1/2) ≤ ((1 : ℕ) : ℤ)) ∧
    (create_complete_basis 1 (1/2)).exhaust =
      (if pythonRound (((1 : ℕ) : ℚ) / 2 + 1/2) = 0 ∨
          pythonRound (((1 : ℕ) : ℚ) / 2 + 1/2) = ((1 : ℕ) : ℤ)
       then 1 else 0) := by
  have e : pythonRound (((1 : ℕ) : ℚ) / 2 + 1/2) = 1 := pythonRound_of_eq_intCast (by norm_num)
  exact ⟨⟨by rw [e]; decide, by rw [e]; decide⟩,
    claim_C7 1 (1/2) (by rw [e]; decide) (by rw [e]; decide)⟩

/-! ### reorder_basis and claim C8 -/

/-- Element access of `reorder_basis`'s input: a 2-D column vector
(`psi_diag[i, 0]`, the left summand) or a flat 1-D vector (`psi_diag[i]`,
the right summand, the `except IndexError` fallback of the source). The
complex amplitudes of the source are embedded as exact rationals. -/
def vecEntry (ψ : List (List ℚ) ⊕ List ℚ) (i : ℕ) : ℚ :=
  match ψ with
  | Sum.inl m => ((m[i]?.bind (fun row => row[0]?)).getD 0)
  | Sum.inr v => (v[i]?.getD 0)

/-- Number of rows of the input vector (= length of `psi_diag.nonzero()`'s
index space). -/
def vecLen (ψ : List (List ℚ) ⊕ List ℚ) : ℕ :=
  match ψ with
  | Sum.inl m => m.length
  | Sum.inr v => v.length

/-- `reorder_basis(N, psi_diag, current_j)` from `half.py`: allocate a zero
column vector of length `2^N`, then for every index `i` with a nonzero
entry in the sector-sorted input write that entry at position `to_ord[i]`
(the same writes happen whether the input is the 2-D or the 1-D shape). -/
def reorder_basis (N : ℕ) (psi_diag : List (List ℚ) ⊕ List ℚ) (current_j : ℚ) : List ℚ :=
  let to_ord := (create_complete_basis N current_j).to_ord
  ((List.range (vecLen psi_diag)).filter (fun i => vecEntry psi_diag i ≠ 0)).foldl
    (fun acc i => acc.set ((dget to_ord i).getD 0) (vecEntry psi_diag i))
    (List.replicate (2 ^ N) 0)

theorem dget_to_ord_eq (N : ℕ) (j : ℚ)
    (h0 : 0 ≤ pythonRound ((N : ℚ) / 2 + j))
    (hN : pythonRound ((N : ℚ) / 2 + j) ≤ (N : ℤ)) (i : ℕ) :
    dget (create_complete_basis N j).to_ord i =
      if i < N.choose (pythonRound ((N : ℚ) / 2 + j)).toNat
      then some (2 ^ N -
        (sectorDesc N (pythonRound ((N : ℚ) / 2 + j)).toNat).getD i 0 - 1)
      else none := by
  rw [create_complete_basis_char N j h0 hN, dget_ord_range]

theorem find?_key_of_nodup {ws : List (ℕ × ℚ)} {k : ℕ} {v : ℚ}
    (hnd : (ws.map Prod.fst).Nodup) (hmem : (k, v) ∈ ws) :
    ws.find? (fun w => w.1 = k) = some (k, v) := by
  induction ws with
  | nil => simp at hmem
  | cons a t ih =>
      rcases List.mem_cons.mp hmem with rfl | hmt
      · exact List.find?_cons_of_pos _ (by simp)
      · have hak : a.1 ≠ k := by
          intro hk
          have : k ∈ t.map Prod.fst := List.mem_map.mpr ⟨(k, v), hmt, rfl⟩
          rw [List.map_cons] at hnd
          exact (List.nodup_cons.mp hnd).1 (hk ▸ this)
        rw [List.find?_cons_of_neg _ (by simp [hak]), ih (by
          rw [List.map_cons] at hnd
          exact (List.nodup_cons.mp hnd).2) hmt]

theorem foldl_set_length (ws : List (ℕ × ℚ)) (base : List ℚ) :
    (ws.foldl (fun acc w => acc.set w.1 w.2) base).length = base.length := by
  induction ws generalizing base with
  | nil => rfl
  | cons a t ih => rw [List.foldl_cons, ih, List.length_set]

/-- After a sequence of writes at pairwise distinct in-range positions, the
result reads back the written value at each written position and the base
elsewhere. -/
theorem foldl_set_getElem? (ws : List (ℕ × ℚ)) (base : List ℚ)
    (hnd : (ws.map Prod.fst).Nodup) (hlt : ∀ w ∈ ws, w.1 < base.length) (g : ℕ) :
    (ws.foldl (fun acc w => acc.set w.1 w.2) base)[g]? =
      (ws.find? (fun w => w.1 = g)).elim base[g]? (fun w => some w.2) := by
  induction ws generalizing base with
  | nil => rfl
  | cons a t ih =>
      rw [List.foldl_cons]
      have hnd' : (t.map Prod.fst).Nodup := by
        rw [List.map_cons] at hnd
        exact (List.nodup_cons.mp hnd).2
      have hlt' : ∀ w ∈ t, w.1 < (base.set a.1 a.2).length := by
        intro w hw
        rw [List.length_set]
        exact hlt w (List.mem_cons_of_mem a hw)
      rw [ih (base.set a.1 a.2) hnd' hlt']
      by_cases hag : a.1 = g
      · have hfind : t.find? (fun w => w.1 = g) = none := by
          rw [List.find?_eq_none]
          intro x hx
          simp only [decide_eq_true_eq]
          intro hxg
          rw [List.map_cons] at hnd
          exact (List.nodup_cons.mp hnd).1
            (hag ▸ hxg ▸ List.mem_map.mpr ⟨x, hx, rfl⟩)
        rw [hfind, List.find?_cons_of_pos _ (by simp [hag])]
        simp only [Option.elim]
        rw [← hag, List.getElem?_set_self (hlt a (List.mem_cons_self a t))]
      · rw [List.find?_cons_of_neg _ (by simp [hag])]
        cases hfind : t.find? (fun w => w.1 = g) with
        | none => simp only [hfind, Option.elim, List.getElem?_set_ne hag]
        | some w => simp only [hfind, Option.elim]

theorem foldl_congr_mem {l : List ℕ} {f g : List ℚ → ℕ → List ℚ}
    (h : ∀ acc, ∀ x ∈ l, f acc x = g acc x) (init : List ℚ) :
    l.foldl f init = l.foldl g init := by
  induction l generalizing init with
  | nil => rfl
  | cons a t ih =>
      rw [List.foldl_cons, List.foldl_cons, h init a (List.mem_cons_self a t)]
      exact ih (fun acc x hx => h acc x (List.mem_cons_of_mem a hx)) _

/-- C8: for every valid `(N, current_j)` and every sector-sorted input
(2-D column or flat 1-D) supported inside the sector, `reorder_basis`
returns a length-`2^N` vector carrying each nonzero input entry `i` at the
global position `to_ord[i]`, and exactly zero at every global position the
sector does not occupy (no `to_ord` value hits it). -/
theorem claim_C8 (N : ℕ) (j : ℚ) (ψ : List (List ℚ) ⊕ List ℚ)
    (h0 : 0 ≤ pythonRound ((N : ℚ) / 2 + j))
    (hN : pythonRound ((N : ℚ) / 2 + j) ≤ (N : ℤ))
    (hlen : vecLen ψ ≤ N.choose (pythonRound ((N : ℚ) / 2 + j)).toNat) :
    (reorder_basis N ψ j).length = 2 ^ N ∧
    (∀ i, i < vecLen ψ → vecEntry ψ i ≠ 0 →
      ∃ g, dget (create_complete_basis N j).to_ord i = some g ∧
        (reorder_basis N ψ j)[g]? = some (vecEntry ψ i)) ∧
    (∀ g, g < 2 ^ N →
      (∀ i, i < N.choose (pythonRound ((N : ℚ) / 2 + j)).toNat →
        dget (create_complete_basis N j).to_ord i ≠ some g) →
      (reorder_basis N ψ j)[g]? = some 0) := by
  set p := (pythonRound ((N : ℚ) / 2 + j)).toNat with hpdef
  have hp : p ≤ N := by omega
  have hds : (sectorDesc N p).length = N.choose p := sectorDesc_length _ _
  set r : ℕ → ℕ := fun i => 2 ^ N - (sectorDesc N p).getD i 0 - 1 with hrdef
  have hr_lt : ∀ i, r i < 2 ^ N := by
    intro i
    have : (1 : ℕ) ≤ 2 ^ N := Nat.one_le_two_pow
    simp only [hrdef]
    omega
  have hr_inj : ∀ a, a < N.choose p → ∀ c, c < N.choose p → r a = r c → a = c := by
    intro a ha c hc h
    have ha' : a < (sectorDesc N p).length := by omega
    have hc' : c < (sectorDesc N p).length := by omega
    have h1 := sectorDesc_getD_lt ha'
    have h2 := sectorDesc_getD_lt hc'
    simp only [hrdef] at h
    exact sectorDesc_getD_inj ha' hc' (by omega)
  set nz := (List.range (vecLen ψ)).filter (fun i => vecEntry ψ i ≠ 0) with hnzdef
  have hnz_lt : ∀ i ∈ nz, i < N.choose p := by
    intro i hi
    have := List.mem_range.mp (List.mem_of_mem_filter hi)
    omega
  have hkey : ∀ i ∈ nz, (dget (create_complete_basis N j).to_ord i).getD 0 = r i := by
    intro i hi
    rw [dget_to_ord_eq N j h0 hN, if_pos (hnz_lt i hi)]
    rfl
  set ws := nz.map (fun i => (r i, vecEntry ψ i)) with hwsdef
  have hws_nodup : (ws.map Prod.fst).Nodup := by
    rw [hwsdef, List.map_map]
    have : (Prod.fst ∘ fun i => (r i, vecEntry ψ i)) = r := rfl
    rw [this]
    exact ((List.nodup_range _).filter _).map_on
      (fun x hx y hy hxy => hr_inj x (hnz_lt x hx) y (hnz_lt y hy) hxy)
  have hws_lt : ∀ w ∈ ws, w.1 < (List.replicate (2 ^ N) (0 : ℚ)).length := by
    intro w hw
    rw [List.length_replicate]
    obtain ⟨i, _, rfl⟩ := List.mem_map.mp hw
    exact hr_lt i
  have hre : reorder_basis N ψ j =
      ws.foldl (fun acc w => acc.set w.1 w.2) (List.replicate (2 ^ N) 0) := by
    rw [reorder_basis, hwsdef, List.foldl_map]
    exact foldl_congr_mem (fun acc i hi => by rw [hkey i hi]) _
  refine ⟨?_, ?_, ?_⟩
  · rw [hre, foldl_set_length, List.length_replicate]
  · intro i hi hne
    have hinz : i ∈ nz := by
      rw [hnzdef]
      refine List.mem_filter.mpr ⟨List.mem_range.mpr hi, by simpa using hne⟩
    refine ⟨r i, ?_, ?_⟩
    · rw [dget_to_ord_eq N j h0 hN, if_pos (hnz_lt i hinz)]
    · rw [hre, foldl_set_getElem? ws _ hws_nodup hws_lt,
        find?_key_of_nodup hws_nodup (List.mem_map.mpr ⟨i, hinz, rfl⟩)]
      rfl
  · intro g hg hno
    have hfind : ws.find? (fun w => w.1 = g) = none := by
      rw [List.find?_eq_none]
      intro w hw
      obtain ⟨i, hi, rfl⟩ := List.mem_map.mp hw
      simp only [decide_eq_true_eq]
      intro hrg
      apply hno i (hnz_lt i hi)
      rw [dget_to_ord_eq N j h0 hN, if_pos (hnz_lt i hi)]
      exact congrArg some hrg
    rw [hre, foldl_set_getElem? ws _ hws_nodup hws_lt, hfind]
    simp only [Option.elim]
    rw [List.getElem?_replicate, if_pos hg]

/-- C8 witness: reordering the flat vector `[5, 7]` for `N = 2`,
`current_j = 0`. -/
theorem claim_C8_witness :
    (0 ≤ pythonRound (((2 : ℕ) : ℚ) / 2 + 0) ∧
      pythonRound (((2 : ℕ) : ℚ) / 2 + 0) ≤ ((2 : ℕ) : ℤ) ∧
      vecLen (Sum.inr [5, 7]) ≤ Nat.choose 2 (pythonRound (((2 : ℕ) : ℚ) / 2 + 0)).toNat) ∧
    ((reorder_basis 2 (Sum.inr [5, 7]) 0).length = 2 ^ 2 ∧
    (∀ i, i < vecLen (Sum.inr [5, 7] : List (List ℚ) ⊕ List ℚ) →
      vecEntry (Sum.inr [5, 7]) i ≠ 0 →
      ∃ g, dget (create_complete_basis 2 0).to_ord i = some g ∧
        (reorder_basis 2 (Sum.inr [5, 7]) 0)[g]? = some (vecEntry (Sum.inr [5, 7]) i)) ∧
    (∀ g, g < 2 ^ 2 →
      (∀ i, i < Nat.choose 2 (pythonRound (((2 : ℕ) : ℚ) / 2 + 0)).toNat →
        dget (create_complete_basis 2 0).to_ord i ≠ some g) →
      (reorder_basis 2 (Sum.inr [5, 7]) 0)[g]? = some 0)) := by
  have e : pythonRound (((2 : ℕ) : ℚ) / 2 + 0) = 1 := pythonRound_of_eq_intCast (by norm_num)
  refine ⟨⟨by rw [e]; decide, by rw [e]; decide, by rw [e]; decide⟩,
    claim_C8 2 0 (Sum.inr [5, 7]) (by rw [e]; decide) (by rw [e]; decide) (by rw [e]; decide)⟩

/-! ### full_matrix: sparse Kronecker products -/

/-- A sparse matrix, embedded as its dimensions and an entry function
(entries outside the stated dimensions are irrelevant, see `SpMat.REq`).
The float/complex entries of the source are embedded as exact rationals. -/
structure SpMat where
  rows : ℕ
  cols : ℕ
  entry : ℕ → ℕ → ℚ

/-- `scipy.sparse.eye(n)`. -/
def spEye (n : ℕ) : SpMat :=
  ⟨n, n, fun i j => if i = j then 1 else 0⟩

/-- `scipy.sparse.kron(A, B)` in the row-major block convention:
`(A ⊗ B)[i, j] = A[i / B.rows, j / B.cols] * B[i % B.rows, j % B.cols]`. -/
def spKron (A B : SpMat) : SpMat :=
  ⟨A.rows * B.rows, A.cols * B.cols,
   fun i j => A.entry (i / B.rows) (j / B.cols) * B.entry (i % B.rows) (j % B.cols)⟩

/-- Equality of sparse matrices: same dimensions and the same entries on
every in-range position. -/
def SpMat.REq (A B : SpMat) : Prop :=
  A.rows = B.rows ∧ A.cols = B.cols ∧
  ∀ i j, i < A.rows → j < A.cols → A.entry i j = B.entry i j

/-- `full_matrix(matrix, k, N)` from `half.py` (`dim = 2`): the `k == 0`,
`k == 1` and general branches. Converting a dense input to CSC leaves the
entries unchanged, so the embedding takes the matrix directly. -/
def full_matrix (S : SpMat) (k N : ℕ) : SpMat :=
  if k = 0 then spKron S (spEye (2 ^ (N - 1)))
  else if k = 1 then spKron (spKron (spEye 2) S) (spEye (2 ^ (N - 2)))
  else spKron (spKron (spKron (spEye 2) (spEye (2 ^ (k - 1)))) S) (spEye (2 ^ (N - k - 1)))

/-- The general (`else`) branch of `full_matrix` as its own definition,
for comparison with the dedicated `k == 1` branch. -/
def full_matrix_general (S : SpMat) (k N : ℕ) : SpMat :=
  spKron (spKron (spKron (spEye 2) (spEye (2 ^ (k - 1)))) S) (spEye (2 ^ (N - k - 1)))

theorem speq_refl (A : SpMat) : A.REq A :=
  ⟨rfl, rfl, fun _ _ _ _ => rfl⟩

theorem speq_of_eq {A B : SpMat} (h : A = B) : A.REq B := h ▸ speq_refl A

theorem speq_symm {A B : SpMat} (h : A.REq B) : B.REq A :=
  ⟨h.1.symm, h.2.1.symm, fun i j hi hj =>
    (h.2.2 i j (h.1 ▸ hi) (h.2.1 ▸ hj)).symm⟩

theorem speq_trans {A B C : SpMat} (h1 : A.REq B) (h2 : B.REq C) : A.REq C :=
  ⟨h1.1.trans h2.1, h1.2.1.trans h2.2.1, fun i j hi hj =>
    (h1.2.2 i j hi hj).trans (h2.2.2 i j (h1.1 ▸ hi) (h1.2.1 ▸ hj))⟩

theorem spKron_congr {A A' B B' : SpMat} (hA : A.REq A') (hB : B.REq B') :
    (spKron A B).REq (spKron A' B') := by
  obtain ⟨hAr, hAc, hAe⟩ := hA
  obtain ⟨hBr, hBc, hBe⟩ := hB
  refine ⟨by simp [spKron, hAr, hBr], by simp [spKron, hAc, hBc], ?_⟩
  intro i j hi hj
  simp only [spKron] at hi hj ⊢
  rcases Nat.eq_zero_or_pos B.rows with hbz | hbr
  · rw [hbz, Nat.mul_zero] at hi
    omega
  rcases Nat.eq_zero_or_pos B.cols with hcz | hbc
  · rw [hcz, Nat.mul_zero] at hj
    omega
  have hdi : i / B.rows < A.rows := Nat.div_lt_of_lt_mul (by rw [Nat.mul_comm]; exact hi)
  have hdj : j / B.cols < A.cols := Nat.div_lt_of_lt_mul (by rw [Nat.mul_comm]; exact hj)
  rw [hAe _ _ hdi hdj, hBe _ _ (Nat.mod_lt _ hbr) (Nat.mod_lt _ hbc), hBr, hBc]

theorem spKron_eye_eye (a b : ℕ) : (spKron (spEye a) (spEye b)).REq (spEye (a * b)) := by
  refine ⟨rfl, rfl, ?_⟩
  intro i j hi hj
  simp only [spKron, spEye] at hi hj ⊢
  by_cases hij : i = j
  · subst hij
    rw [if_pos rfl, if_pos rfl, if_pos rfl, one_mul]
  · by_cases h1 : i / b = j / b
    · by_cases h2 : i % b = j % b
      · exfalso
        apply hij
        conv_lhs => rw [← Nat.div_add_mod i b]
        conv_rhs => rw [← Nat.div_add_mod j b]
        rw [h1, h2]
      · rw [if_pos h1, if_neg h2, if_neg hij, one_mul]
    · rw [if_neg h1, if_neg hij, zero_mul]

theorem spKron_assoc (A B C : SpMat) :
    (spKron (spKron A B) C).REq (spKron A (spKron B C)) := by
  refine ⟨by simp [spKron, Nat.mul_assoc], by simp [spKron, Nat.mul_assoc], ?_⟩
  intro i j _ _
  simp only [spKron]
  have e1 : i / C.rows / B.rows = i / (B.rows * C.rows) := by
    rw [Nat.div_div_eq_div_mul, Nat.mul_comm]
  have e2 : j / C.cols / B.cols = j / (B.cols * C.cols) := by
    rw [Nat.div_div_eq_div_mul, Nat.mul_comm]
  have e3 : i % (B.rows * C.rows) / C.rows = i / C.rows % B.rows := by
    rw [Nat.mul_comm, Nat.mod_mul_right_div_self]
  have e4 : j % (B.cols * C.cols) / C.cols = j / C.cols % B.cols := by
    rw [Nat.mul_comm, Nat.mod_mul_right_div_self]
  have e5 : i % (B.rows * C.rows) % C.rows = i % C.rows :=
    Nat.mod_mod_of_dvd i ⟨B.rows, Nat.mul_comm _ _⟩
  have e6 : j % (B.cols * C.cols) % C.cols = j % C.cols :=
    Nat.mod_mod_of_dvd j ⟨B.cols, Nat.mul_comm _ _⟩
  rw [e1, e2, e3, e4, e5, e6, mul_assoc]

theorem spKron_eyeOne_left (A : SpMat) : (spKron (spEye 1) A).REq A := by
  refine ⟨by simp [spKron, spEye], by simp [spKron, spEye], ?_⟩
  intro i j hi hj
  simp only [spKron, spEye, one_mul] at hi hj ⊢
  rw [Nat.div_eq_of_lt hi, Nat.div_eq_of_lt hj, if_pos rfl,
    Nat.mod_eq_of_lt hi, Nat.mod_eq_of_lt hj, one_mul]

theorem spKron_eyeOne_right (A : SpMat) : (spKron A (spEye 1)).REq A := by
  refine ⟨by simp [spKron, spEye], by simp [spKron, spEye], ?_⟩
  intro i j _ _
  simp only [spKron, spEye]
  rw [Nat.div_one, Nat.div_one, Nat.mod_one, Nat.mod_one, if_pos rfl, mul_one]

/-- The three branches of `full_matrix` all compute
`I₂^{⊗k} ⊗ op ⊗ I₂^{⊗(N-k-1)}` (with the two identity factors grouped as
single identities). -/
theorem full_matrix_eq_embed (S : SpMat) (k N : ℕ) (hk : k < N) :
    (full_matrix S k N).REq
      (spKron (spKron (spEye (2 ^ k)) S) (spEye (2 ^ (N - k - 1)))) := by
  by_cases hk0 : k = 0
  · subst hk0
    rw [full_matrix, if_pos rfl]
    have h1 : (2 : ℕ) ^ 0 = 1 := pow_zero 2
    rw [h1]
    exact spKron_congr (speq_symm (spKron_eyeOne_left S)) (speq_refl _)
  · by_cases hk1 : k = 1
    · subst hk1
      rw [full_matrix, if_neg hk0, if_pos rfl]
      have h1 : (2 : ℕ) ^ 1 = 2 := pow_one 2
      have h2 : N - 1 - 1 = N - 2 := by omega
      rw [h1, h2]
      exact speq_refl _
    · rw [full_matrix, if_neg hk0, if_neg hk1]
      have h2k : 2 * 2 ^ (k - 1) = 2 ^ k := by
        have hk1' : k - 1 + 1 = k := by omega
        conv_rhs => rw [← hk1']
        rw [pow_succ']
      refine spKron_congr (spKron_congr ?_ (speq_refl S)) (speq_refl _)
      exact speq_trans (spKron_eye_eye 2 (2 ^ (k - 1)))
        (speq_of_eq (by rw [h2k]))

theorem full_matrix_dims (S : SpMat) (k N : ℕ) (hr : S.rows = 2) (hc : S.cols = 2)
    (hk : k < N) :
    (full_matrix S k N).rows = 2 ^ N ∧ (full_matrix S k N).cols = 2 ^ N := by
  have key : ∀ d : ℕ, d = 2 → d * 2 ^ (N - 1) = 2 ^ N ∧
      2 * d * 2 ^ (N - 2) = (if 1 < N then 2 ^ N else 2 * d * 2 ^ (N - 2)) ∧
      2 * 2 ^ (k - 1) * d * 2 ^ (N - k - 1) =
        (if 2 ≤ k then 2 ^ N else 2 * 2 ^ (k - 1) * d * 2 ^ (N - k - 1)) := by
    intro d hd
    subst hd
    refine ⟨?_, ?_, ?_⟩
    · have : 2 * 2 ^ (N - 1) = 2 ^ (N - 1 + 1) := (pow_succ' 2 (N - 1)).symm
      rw [this]
      congr 1
      omega
    · by_cases h1 : 1 < N
      · rw [if_pos h1]
        have e : 2 * 2 * 2 ^ (N - 2) = 2 ^ (1 + 1 + (N - 2)) := by
          rw [pow_add, pow_add, pow_one]
        rw [e]
        congr 1
        omega
      · rw [if_neg h1]
    · by_cases h2 : 2 ≤ k
      · rw [if_pos h2]
        have e : 2 * 2 ^ (k - 1) * 2 * 2 ^ (N - k - 1) = 2 ^ (1 + (k - 1) + 1 + (N - k - 1)) := by
          rw [pow_add, pow_add, pow_add, pow_one]
        rw [e]
        congr 1
        omega
      · rw [if_neg h2]
  constructor
  · by_cases hk0 : k = 0
    · subst hk0
      rw [full_matrix, if_pos rfl]
      exact (key S.rows hr).1
    · by_cases hk1 : k = 1
      · subst hk1
        have := (key S.rows hr).2.1
        rw [if_pos (by omega)] at this
        rw [full_matrix, if_neg hk0, if_pos rfl]
        exact this
      · have := (key S.rows hr).2.2
        rw [if_pos (by omega)] at this
        rw [full_matrix, if_neg hk0, if_neg hk1]
        exact this
  · by_cases hk0 : k = 0
    · subst hk0
      rw [full_matrix, if_pos rfl]
      exact (key S.cols hc).1
    · by_cases hk1 : k = 1
      · subst hk1
        have := (key S.cols hc).2.1
        rw [if_pos (by omega)] at this
        rw [full_matrix, if_neg hk0, if_pos rfl]
        exact this
      · have := (key S.cols hc).2.2
        rw [if_pos (by omega)] at this
        rw [full_matrix, if_neg hk0, if_neg hk1]
        exact this

/-- C3: `full_matrix(op, k, N)` computes the Kronecker embedding
`I₂^{⊗k} ⊗ op ⊗ I₂^{⊗(N-k-1)}`; the result is `2^N × 2^N`, embedding the
`2 × 2` identity yields the `2^N` identity for every `k`, and for `N = 1`,
`k = 0` the result is `op` itself, with no spurious identity factor. -/
theorem claim_C3 (S : SpMat) (k N : ℕ) (hr : S.rows = 2) (hc : S.cols = 2) (hk : k < N) :
    (full_matrix S k N).REq
      (spKron (spKron (spEye (2 ^ k)) S) (spEye (2 ^ (N - k - 1)))) ∧
    (full_matrix S k N).rows = 2 ^ N ∧ (full_matrix S k N).cols = 2 ^ N ∧
    (full_matrix (spEye 2) k N).REq (spEye (2 ^ N)) ∧
    (N = 1 → k = 0 → (full_matrix S k N).REq S) := by
  refine ⟨full_matrix_eq_embed S k N hk, (full_matrix_dims S k N hr hc hk).1,
    (full_matrix_dims S k N hr hc hk).2, ?_, ?_⟩
  · refine speq_trans (full_matrix_eq_embed (spEye 2) k N hk) ?_
    refine speq_trans (spKron_congr (spKron_eye_eye (2 ^ k) 2) (speq_refl _)) ?_
    refine speq_trans (spKron_eye_eye (2 ^ k * 2) (2 ^ (N - k - 1))) ?_
    apply speq_of_eq
    congr 1
    have e : 2 ^ k * 2 * 2 ^ (N - k - 1) = 2 ^ (k + 1 + (N - k - 1)) := by
      rw [pow_add, pow_add, pow_one]
    rw [e]
    congr 1
    omega
  · intro hN1 hk0
    subst hN1
    subst hk0
    rw [full_matrix, if_pos rfl]
    have h1 : (2 : ℕ) ^ (1 - 1) = 1 := by norm_num
    rw [h1]
    exact spKron_eyeOne_right S

/-- C3 witness: the embedding property at `N = 2`, `k = 1` for a concrete
non-symmetric `2 × 2` matrix. -/
theorem claim_C3_witness :
    ((⟨2, 2, fun i j => (2 * i + 3 * j : ℚ)⟩ : SpMat).rows = 2 ∧
      (⟨2, 2, fun i j => (2 * i + 3 * j : ℚ)⟩ : SpMat).cols = 2 ∧ 1 < 2) ∧
    ((full_matrix ⟨2, 2, fun i j => (2 * i + 3 * j : ℚ)⟩ 1 2).REq
      (spKron (spKron (spEye (2 ^ 1)) ⟨2, 2, fun i j => (2 * i + 3 * j : ℚ)⟩)
        (spEye (2 ^ (2 - 1 - 1)))) ∧
    (full_matrix ⟨2, 2, fun i j => (2 * i + 3 * j : ℚ)⟩ 1 2).rows = 2 ^ 2 ∧
    (full_matrix ⟨2, 2, fun i j => (2 * i + 3 * j : ℚ)⟩ 1 2).cols = 2 ^ 2 ∧
    (full_matrix (spEye 2) 1 2).REq (spEye (2 ^ 2)) ∧
    (2 = 1 → 1 = 0 →
      (full_matrix ⟨2, 2, fun i j => (2 * i + 3 * j : ℚ)⟩ 1 2).REq
        ⟨2, 2, fun i j => (2 * i + 3 * j : ℚ)⟩)) :=
  ⟨⟨rfl, rfl, by decide⟩,
    claim_C3 ⟨2, 2, fun i j => (2 * i + 3 * j : ℚ)⟩ 1 2 rfl rfl (by decide)⟩

/-- C10: the dedicated `k == 1` branch of `full_matrix` produces the same
matrix as the general `else` branch evaluated at `k = 1`: the special case
is an equivalent optimisation, not a behavioural difference. -/
theorem claim_C10 (S : SpMat) (N : ℕ) (hr : S.rows = 2) (hc : S.cols = 2) (hN : 2 ≤ N) :
    (full_matrix S 1 N).REq (full_matrix_general S 1 N) := by
  rw [full_matrix, if_neg (by omega), if_pos rfl, full_matrix_general]
  have h2 : N - 1 - 1 = N - 2 := by omega
  have h1 : (2 : ℕ) ^ (1 - 1) = 1 := by norm_num
  rw [h2, h1]
  exact spKron_congr (spKron_congr (speq_symm (spKron_eyeOne_right (spEye 2)))
    (speq_refl S)) (speq_refl _)

/-- C10 witness: the two branches agree at `N = 3` on a concrete `2 × 2`
matrix. -/
theorem claim_C10_witness :
    ((⟨2, 2, fun i j => (5 * i + 7 * j : ℚ)⟩ : SpMat).rows = 2 ∧
      (⟨2, 2, fun i j => (5 * i + 7 * j : ℚ)⟩ : SpMat).cols = 2 ∧ 2 ≤ 3) ∧
    (full_matrix ⟨2, 2, fun i j => (5 * i + 7 * j : ℚ)⟩ 1 3).REq
      (full_matrix_general ⟨2, 2, fun i j => (5 * i + 7 * j : ℚ)⟩ 1 3) :=
  ⟨⟨rfl, rfl, by decide⟩,
    claim_C10 ⟨2, 2, fun i j => (5 * i + 7 * j : ℚ)⟩ 3 rfl rfl (by decide)⟩

/-! ### similarity_trans_matrix -/

/-- One iteration of the sector loop in `similarity_trans_matrix`: for the
sector `current_j = N/2 - t`, write an entry at row `diag_ind + offset`,
column `ord_ind` for each item `(ord_ind, diag_ind)` of that sector's
`to_diag` (advancing `current_pos` per item), then advance `offset` by
`blksize`. -/
def simStep (N : ℕ) (acc : ℕ × ℕ × List (ℕ × ℕ)) (t : ℕ) : ℕ × ℕ × List (ℕ × ℕ) :=
  let current_j : ℚ := (N : ℚ) / 2 - (t : ℚ)
  let spin_ups : ℤ := pythonRound ((N : ℚ) / 2 + current_j)
  let blksize : ℕ := chooseInt N spin_ups
  let to_diag := (create_complete_basis N current_j).to_diag
  (acc.1 + blksize, acc.2.1 + to_diag.length,
   acc.2.2 ++ to_diag.map (fun q => (q.2 + acc.1, q.1)))

/-- `similarity_trans_matrix(N)` from `half.py`, embedded as the writes
into the preallocated `row_ind`/`col_ind` arrays. The state carries the
block `offset`, `current_pos`, and the written `(row, col)` pairs in write
order. The loop variable runs over `np.arange(N/2, -N/2 - 1, -1)`, whose
values are exactly `current_j = N/2 - t` for `t = 0, …, N`. -/
def similarity_triplets (N : ℕ) : ℕ × ℕ × List (ℕ × ℕ) :=
  (List.range (N + 1)).foldl (simStep N) (0, 0, [])

/-- The assembled matrix `csc_matrix((data, (row_ind, col_ind)))` with
`data = np.ones(dim)`: entry `(r, c)` sums the data values written there,
i.e. counts the triplets recorded at `(r, c)`. -/
def simU (N : ℕ) (r c : ℕ) : ℚ :=
  (((similarity_triplets N).2.2.countP (fun w => w = (r, c)) : ℕ) : ℚ)

theorem sector_su (N t : ℕ) :
    pythonRound ((N : ℚ) / 2 + ((N : ℚ) / 2 - (t : ℚ))) = (N : ℤ) - (t : ℤ) := by
  apply pythonRound_of_eq_intCast
  push_cast
  ring

/-- The `to_diag` dict of the sector visited at loop step `t`. -/
theorem sector_to_diag (N t : ℕ) (ht : t ≤ N) :
    (create_complete_basis N ((N : ℚ) / 2 - (t : ℚ))).to_diag =
      (List.range (N.choose (N - t))).map
        (fun i => (2 ^ N - (sectorDesc N (N - t)).getD i 0 - 1, i)) := by
  have h1 := sector_su N t
  have h0 : 0 ≤ (N : ℤ) - (t : ℤ) := by omega
  have hNle : (N : ℤ) - (t : ℤ) ≤ (N : ℤ) := by omega
  have htn : ((N : ℤ) - (t : ℤ)).toNat = N - t := by omega
  rw [create_complete_basis, h1, ccbOf_char N _ h0 hNle, htn]

theorem sector_blksize (N t : ℕ) (ht : t ≤ N) :
    chooseInt N (pythonRound ((N : ℚ) / 2 + ((N : ℚ) / 2 - (t : ℚ)))) =
      N.choose (N - t) := by
  rw [sector_su N t, chooseInt, if_pos (by omega)]
  congr 1
  omega

/-- How often a value occurs among the columns written for one sector:
once if it is the reflection of a sector state (it then has exactly `t`
ones, `t` the loop step), never otherwise. -/
theorem count_sector_cols (N t c : ℕ) (ht : t ≤ N) :
    ((List.range (N.choose (N - t))).map
      (fun i => 2 ^ N - (sectorDesc N (N - t)).getD i 0 - 1)).count c =
      if c < 2 ^ N ∧ (toBits N c).count 1 = t then 1 else 0 := by
  have hlen : (sectorDesc N (N - t)).length = N.choose (N - t) := sectorDesc_length _ _
  have hone : (1 : ℕ) ≤ 2 ^ N := Nat.one_le_two_pow
  have hnd : ((List.range (N.choose (N - t))).map
      (fun i => 2 ^ N - (sectorDesc N (N - t)).getD i 0 - 1)).Nodup := by
    refine (List.nodup_range _).map_on ?_
    intro x hx y hy hxy
    have hx' : x < (sectorDesc N (N - t)).length := by
      rw [hlen]; exact List.mem_range.mp hx
    have hy' : y < (sectorDesc N (N - t)).length := by
      rw [hlen]; exact List.mem_range.mp hy
    have h1 := sectorDesc_getD_lt hx'
    have h2 := sectorDesc_getD_lt hy'
    exact sectorDesc_getD_inj hx' hy' (by omega)
  have hmem : c ∈ (List.range (N.choose (N - t))).map
      (fun i => 2 ^ N - (sectorDesc N (N - t)).getD i 0 - 1) ↔
      (c < 2 ^ N ∧ (toBits N c).count 1 = t) := by
    constructor
    · intro hc
      obtain ⟨i, hi, rfl⟩ := List.mem_map.mp hc
      have hi' : i < (sectorDesc N (N - t)).length := by
        rw [hlen]; exact List.mem_range.mp hi
      have hd := mem_sectorDesc.mp (sectorDesc_getD_mem hi')
      have hdlt := hd.1
      constructor
      · omega
      · have hrefl : 2 ^ N - (sectorDesc N (N - t)).getD i 0 - 1 =
            2 ^ N - 1 - (sectorDesc N (N - t)).getD i 0 := by omega
        rw [hrefl, toBits_compl N _ hdlt,
          count_one_map_compl _ (toBits_digit_lt_two N _), toBits_length, hd.2]
        omega
    · rintro ⟨hclt, hccnt⟩
      have hmem2 : 2 ^ N - 1 - c ∈ sectorDesc N (N - t) := by
        rw [mem_sectorDesc]
        refine ⟨by omega, ?_⟩
        rw [toBits_compl N c hclt,
          count_one_map_compl _ (toBits_digit_lt_two N c), toBits_length, hccnt]
      obtain ⟨i, hi, hgi⟩ := List.mem_iff_getElem.mp hmem2
      refine List.mem_map.mpr ⟨i, List.mem_range.mpr (by omega), ?_⟩
      rw [getD_eq_getElem_nat hi, hgi]
      omega
  by_cases hc : c < 2 ^ N ∧ (toBits N c).count 1 = t
  · rw [if_pos hc]
    exact List.count_eq_one_of_mem hnd (hmem.mpr hc)
  · rw [if_neg hc]
    exact List.count_eq_zero_of_not_mem (fun hmm => hc (hmem.mp hmm))

theorem simStep_eq (N t : ℕ) (ht : t ≤ N) (acc : ℕ × ℕ × List (ℕ × ℕ)) :
    simStep N acc t =
      (acc.1 + N.choose (N - t), acc.2.1 + N.choose (N - t),
       acc.2.2 ++ (List.range (N.choose (N - t))).map
         (fun i => (i + acc.1, 2 ^ N - (sectorDesc N (N - t)).getD i 0 - 1))) := by
  simp only [simStep, sector_blksize N t ht, sector_to_diag N t ht, List.map_map,
    List.length_map, List.length_range]
  rfl

/-- Loop invariant of `similarity_trans_matrix`: after the `T` sectors of
highest magnetization, `offset` and `current_pos` both equal the sum of
the visited block sizes, the recorded rows are exactly `0, …, offset - 1`
in order, and a column value `c` has been recorded exactly once if it is
an `N`-bit value with fewer than `T` ones and never otherwise. -/
theorem sim_fold_inv (N : ℕ) : ∀ T, T ≤ N + 1 →
    ((List.range T).foldl (simStep N) (0, 0, [])).1 =
        (∑ s in Finset.range T, N.choose (N - s)) ∧
    ((List.range T).foldl (simStep N) (0, 0, [])).2.1 =
        (∑ s in Finset.range T, N.choose (N - s)) ∧
    ((List.range T).foldl (simStep N) (0, 0, [])).2.2.map Prod.fst =
        List.range (∑ s in Finset.range T, N.choose (N - s)) ∧
    (∀ c, (((List.range T).foldl (simStep N) (0, 0, [])).2.2.map Prod.snd).count c =
        if c < 2 ^ N ∧ (toBits N c).count 1 < T then 1 else 0) := by
  intro T
  induction T with
  | zero =>
      intro _
      refine ⟨rfl, rfl, rfl, ?_⟩
      intro c
      rw [if_neg (by omega)]
      rfl
  | succ T ih =>
      intro hT
      obtain ⟨ih1, ih2, ih3, ih4⟩ := ih (by omega)
      have htN : T ≤ N := by omega
      rw [List.range_succ, List.foldl_append, List.foldl_cons, List.foldl_nil,
        simStep_eq N T htN]
      refine ⟨?_, ?_, ?_, ?_⟩
      · simp only [ih1, Finset.sum_range_succ]
      · simp only [ih2, Finset.sum_range_succ]
      · simp only [List.map_append, List.map_map, ih3, ih1, Finset.sum_range_succ,
          List.range_add]
        congr 1
        apply List.map_congr_left
        intro i _
        simp [Nat.add_comm]
      · intro c
        simp only [List.map_append, List.map_map, List.count_append, ih4]
        have hcols : ((List.range (N.choose (N - T))).map
            (Prod.snd ∘ fun i =>
              (i + ((List.range T).foldl (simStep N) (0, 0, [])).1,
               2 ^ N - (sectorDesc N (N - T)).getD i 0 - 1))).count c =
            if c < 2 ^ N ∧ (toBits N c).count 1 = T then 1 else 0 := by
          have : (Prod.snd ∘ fun i =>
              (i + ((List.range T).foldl (simStep N) (0, 0, [])).1,
               2 ^ N - (sectorDesc N (N - T)).getD i 0 - 1)) =
              fun i => 2 ^ N - (sectorDesc N (N - T)).getD i 0 - 1 := rfl
          rw [this, count_sector_cols N T c htN]
        rw [hcols]
        split_ifs <;> omega

/-- The total of the descending-sector block sizes is the full dimension. -/
theorem sim_total (N : ℕ) :
    (∑ s in Finset.range (N + 1), N.choose (N - s)) = 2 ^ N := by
  have := Finset.sum_range_reflect (fun s => N.choose s) (N + 1)
  simp only [Nat.add_sub_cancel] at this
  calc (∑ s in Finset.range (N + 1), N.choose (N - s))
      = ∑ s in Finset.range (N + 1), N.choose (N + 1 - 1 - s) := by
        apply Finset.sum_congr rfl
        intro s hs
        norm_num
  _ = ∑ s in Finset.range (N + 1), N.choose s :=
        Finset.sum_range_reflect (fun s => N.choose s) (N + 1)
  _ = 2 ^ N := Nat.sum_range_choose N

theorem sim_rows (N : ℕ) :
    (similarity_triplets N).2.2.map Prod.fst = List.range (2 ^ N) := by
  have := (sim_fold_inv N (N + 1) (le_refl _)).2.2.1
  rw [sim_total] at this
  exact this

theorem sim_cols_count (N : ℕ) (c : ℕ) :
    ((similarity_triplets N).2.2.map Prod.snd).count c =
      if c < 2 ^ N then 1 else 0 := by
  have h := (sim_fold_inv N (N + 1) (le_refl _)).2.2.2 c
  rw [show ((List.range (N + 1)).foldl (simStep N) (0, 0, [])) = similarity_triplets N
    from rfl] at h
  rw [h]
  have hle := count_one_toBits_le N c
  split_ifs <;> omega

/-- C9: after the sector loop of `similarity_trans_matrix(N)` completes,
the accumulated block offset and the entry counter `current_pos` both
equal `2^N` (the block sizes `C(N, spin_ups)` over all sectors sum to
`2^N`), so the three preallocated arrays of length `2^N` are completely
filled, with no uninitialized positions left. -/
theorem claim_C9 (N : ℕ) (hN : 1 ≤ N) :
    (similarity_triplets N).1 = 2 ^ N ∧
    (similarity_triplets N).2.1 = 2 ^ N ∧
    (similarity_triplets N).2.2.length = 2 ^ N := by
  obtain ⟨h1, h2, h3, _⟩ := sim_fold_inv N (N + 1) (le_refl _)
  rw [sim_total] at h1 h2
  refine ⟨h1, h2, ?_⟩
  have := congrArg List.length (sim_rows N)
  rw [List.length_map, List.length_range] at this
  exact this

/-- C9 witness: the arrays are completely filled for `N = 2`. -/
theorem claim_C9_witness :
    1 ≤ 2 ∧
    ((similarity_triplets 2).1 = 2 ^ 2 ∧
     (similarity_triplets 2).2.1 = 2 ^ 2 ∧
     (similarity_triplets 2).2.2.length = 2 ^ 2) :=
  ⟨by decide, claim_C9 2 (by decide)⟩

/-! ### Claim C2: the similarity transform is a permutation matrix -/

theorem sim_length (N : ℕ) : (similarity_triplets N).2.2.length = 2 ^ N := by
  have := congrArg List.length (sim_rows N)
  rw [List.length_map, List.length_range] at this
  exact this

theorem getD_eq_getElem_pair {l : List (ℕ × ℕ)} {j : ℕ} (h : j < l.length) :
    l.getD j (0, 0) = l[j] := by
  rw [List.getD_eq_getElem?_getD, List.getElem?_eq_getElem h]
  rfl

/-- The triplet list is the graph of the function sending each row to its
unique column. -/
theorem sim_graph (N : ℕ) :
    (similarity_triplets N).2.2 =
      (List.range (2 ^ N)).map
        (fun r => (r, ((similarity_triplets N).2.2.getD r (0, 0)).2)) := by
  apply List.ext_getElem
  · rw [List.length_map, List.length_range, sim_length]
  · intro i h1 h2
    have hlen : (similarity_triplets N).2.2.length = 2 ^ N := sim_length N
    have hfst : (similarity_triplets N).2.2[i].1 = i := by
      have hr := sim_rows N
      have h3 : ((similarity_triplets N).2.2.map Prod.fst)[i]? = some i := by
        rw [hr, List.getElem?_range (by omega)]
      rw [List.getElem?_map, List.getElem?_eq_getElem h1, Option.map_some'] at h3
      exact Option.some.inj h3
    rw [List.getElem_map, List.getElem_range, getD_eq_getElem_pair (by omega)]
    exact Prod.ext hfst rfl

theorem countP_eq_one_of_nodup_mem {l : List (ℕ × ℕ)} {x : ℕ × ℕ}
    (hnd : l.Nodup) (hx : x ∈ l) : l.countP (fun w => w = x) = 1 := by
  induction l with
  | nil => simp at hx
  | cons a t ih =>
      rw [List.countP_cons]
      rcases List.mem_cons.mp hx with rfl | hxt
      · have hzero : t.countP (fun w => w = x) = 0 := by
          rw [List.countP_eq_zero]
          intro w hw
          simp only [decide_eq_true_eq]
          intro hwx
          exact (List.nodup_cons.mp hnd).1 (hwx ▸ hw)
        rw [hzero]
        simp
      · rw [ih (List.nodup_cons.mp hnd).2 hxt]
        have hax : ¬ (a = x) := by
          intro hax
          exact (List.nodup_cons.mp hnd).1 (hax ▸ hxt)
        simp [hax]

theorem sim_count (N r c : ℕ) :
    (similarity_triplets N).2.2.countP (fun w => w = (r, c)) =
      if r < 2 ^ N ∧ ((similarity_triplets N).2.2.getD r (0, 0)).2 = c
      then 1 else 0 := by
  have hnd : ((List.range (2 ^ N)).map
      (fun x => (x, ((similarity_triplets N).2.2.getD x (0, 0)).2))).Nodup :=
    (List.nodup_range _).map_on (fun x _ y _ hxy => congrArg Prod.fst hxy)
  by_cases hrc : r < 2 ^ N ∧ ((similarity_triplets N).2.2.getD r (0, 0)).2 = c
  · rw [if_pos hrc]
    conv_lhs => rw [sim_graph N]
    apply countP_eq_one_of_nodup_mem hnd
    exact List.mem_map.mpr ⟨r, List.mem_range.mpr hrc.1, by rw [hrc.2]⟩
  · rw [if_neg hrc]
    conv_lhs => rw [sim_graph N]
    rw [List.countP_eq_zero]
    intro w hw
    simp only [decide_eq_true_eq]
    intro hwx
    obtain ⟨x, hx, hxe⟩ := List.mem_map.mp hw
    rw [hwx] at hxe
    have h1 : x = r := congrArg Prod.fst hxe
    have h2 : ((similarity_triplets N).2.2.getD x (0, 0)).2 = c := congrArg Prod.snd hxe
    exact hrc ⟨h1 ▸ List.mem_range.mp hx, h1 ▸ h2⟩

theorem sim_colF_lt (N r : ℕ) (hr : r < 2 ^ N) :
    ((similarity_triplets N).2.2.getD r (0, 0)).2 < 2 ^ N := by
  by_contra hge
  have hmem : ((similarity_triplets N).2.2.getD r (0, 0)).2 ∈
      (similarity_triplets N).2.2.map Prod.snd := by
    refine List.mem_map.mpr ⟨(similarity_triplets N).2.2.getD r (0, 0), ?_, rfl⟩
    rw [getD_eq_getElem_pair (by rw [sim_length]; omega)]
    exact List.getElem_mem _
  have hcount := sim_cols_count N ((similarity_triplets N).2.2.getD r (0, 0)).2
  rw [if_neg (by omega)] at hcount
  exact absurd hmem (List.count_eq_zero.mp hcount)

theorem countP_colF (N c : ℕ) (hc : c < 2 ^ N) :
    (List.range (2 ^ N)).countP
      (fun r => ((similarity_triplets N).2.2.getD r (0, 0)).2 = c) = 1 := by
  have h := sim_cols_count N c
  rw [if_pos hc] at h
  conv_lhs at h => rw [sim_graph N]
  rw [List.map_map, List.count_eq_countP, List.countP_map] at h
  rw [← h]
  apply List.countP_congr
  intro x _
  simp only [Function.comp_apply, beq_iff_eq, decide_eq_true_eq]

theorem two_le_countP_of_ne {l : List ℕ} {p : ℕ → Bool} {a b : ℕ}
    (hnd : l.Nodup) (hab : a ≠ b) (ha : a ∈ l) (hb : b ∈ l)
    (hpa : p a = true) (hpb : p b = true) : 2 ≤ l.countP p := by
  induction l with
  | nil => simp at ha
  | cons x t ih =>
      rw [List.countP_cons]
      have hnd' := (List.nodup_cons.mp hnd).2
      rcases List.mem_cons.mp ha with rfl | hat
      · have hbt : b ∈ t := by
          rcases List.mem_cons.mp hb with rfl | h
          · exact absurd rfl hab
          · exact h
        have h1 : 0 < t.countP p := List.countP_pos.mpr ⟨b, hbt, hpb⟩
        rw [if_pos hpa]
        omega
      · rcases List.mem_cons.mp hb with rfl | hbt
        · have h1 : 0 < t.countP p := List.countP_pos.mpr ⟨a, hat, hpa⟩
          rw [if_pos hpb]
          omega
        · have := ih hnd' hat hbt
          omega

theorem sum_indicator_range_eq_countP (n : ℕ) (q : ℕ → Prop) [DecidablePred q] :
    (∑ r in Finset.range n, if q r then (1 : ℚ) else 0) =
      (((List.range n).countP (fun r => decide (q r)) : ℕ) : ℚ) := by
  induction n with
  | zero => simp
  | succ n ih =>
      rw [Finset.sum_range_succ, ih, List.range_succ, List.countP_append]
      by_cases h : q n <;> simp [h, List.countP_cons] <;> push_cast <;> ring

/-- C2: `similarity_trans_matrix(N)` is a `2^N × 2^N` matrix in which
every row and every column has exactly one nonzero entry, equal to `1`;
consequently it is a permutation matrix and its transpose is its inverse
(`Uᵀ U = I`, entrywise). -/
theorem claim_C2 (N : ℕ) (hN : 1 ≤ N) :
    (∀ r, r < 2 ^ N → ∃ c, c < 2 ^ N ∧ simU N r c = 1 ∧
      ∀ c', c' ≠ c → simU N r c' = 0) ∧
    (∀ c, c < 2 ^ N → ∃ r, r < 2 ^ N ∧ simU N r c = 1 ∧
      ∀ r', r' ≠ r → simU N r' c = 0) ∧
    (∀ a, a < 2 ^ N → ∀ b, b < 2 ^ N →
      (∑ r in Finset.range (2 ^ N), simU N r a * simU N r b) =
        if a = b then 1 else 0) := by
  have hU : ∀ r c, simU N r c =
      if r < 2 ^ N ∧ ((similarity_triplets N).2.2.getD r (0, 0)).2 = c
      then 1 else 0 := by
    intro r c
    rw [simU, sim_count]
    split_ifs <;> norm_num
  refine ⟨?_, ?_, ?_⟩
  · intro r hr
    refine ⟨((similarity_triplets N).2.2.getD r (0, 0)).2, sim_colF_lt N r hr, ?_, ?_⟩
    · rw [hU, if_pos ⟨hr, rfl⟩]
    · intro c' hc'
      rw [hU, if_neg (fun hcon => hc' hcon.2.symm)]
  · intro c hc
    have hcp := countP_colF N c hc
    have hex : ∃ r, r < 2 ^ N ∧ ((similarity_triplets N).2.2.getD r (0, 0)).2 = c := by
      have hpos : 0 < (List.range (2 ^ N)).countP
          (fun r => ((similarity_triplets N).2.2.getD r (0, 0)).2 = c) := by omega
      obtain ⟨x, hx, hpx⟩ := List.countP_pos.mp hpos
      exact ⟨x, List.mem_range.mp hx, by simpa using hpx⟩
    obtain ⟨r, hrlt, hrc⟩ := hex
    refine ⟨r, hrlt, by rw [hU, if_pos ⟨hrlt, hrc⟩], ?_⟩
    intro r' hne
    rw [hU]
    rw [if_neg]
    rintro ⟨hr'lt, hr'c⟩
    have h2 : 2 ≤ (List.range (2 ^ N)).countP
        (fun x => ((similarity_triplets N).2.2.getD x (0, 0)).2 = c) := by
      apply two_le_countP_of_ne (List.nodup_range _) hne
        (List.mem_range.mpr hr'lt) (List.mem_range.mpr hrlt)
      · exact decide_eq_true hr'c
      · exact decide_eq_true hrc
    have hcp' := countP_colF N c hc
    omega
  · intro a ha b hb
    by_cases hab : a = b
    · subst hab
      rw [if_pos rfl]
      have : ∀ r ∈ Finset.range (2 ^ N), simU N r a * simU N r a =
          if ((similarity_triplets N).2.2.getD r (0, 0)).2 = a then (1 : ℚ) else 0 := by
        intro r hrm
        have hr := Finset.mem_range.mp hrm
        rw [hU]
        by_cases h : ((similarity_triplets N).2.2.getD r (0, 0)).2 = a
        · rw [if_pos ⟨hr, h⟩, if_pos h, one_mul]
        · rw [if_neg (fun hcon => h hcon.2), if_neg h, zero_mul]
      rw [Finset.sum_congr rfl this, sum_indicator_range_eq_countP, countP_colF N a ha]
      norm_num
    · rw [if_neg hab]
      apply Finset.sum_eq_zero
      intro r hrm
      rw [hU, hU]
      by_cases h : r < 2 ^ N ∧ ((similarity_triplets N).2.2.getD r (0, 0)).2 = a
      · rw [if_pos h, if_neg (fun hcon => hab (h.2.symm.trans hcon.2)), mul_zero]
      · rw [if_neg h, zero_mul]

/-- C2 witness: the permutation property and transpose-inverse identity
instantiated at `N = 2`. -/
theorem claim_C2_witness :
    1 ≤ 2 ∧
    ((∀ r, r < 2 ^ 2 → ∃ c, c < 2 ^ 2 ∧ simU 2 r c = 1 ∧
      ∀ c', c' ≠ c → simU 2 r c' = 0) ∧
    (∀ c, c < 2 ^ 2 → ∃ r, r < 2 ^ 2 ∧ simU 2 r c = 1 ∧
      ∀ r', r' ≠ r → simU 2 r' c = 0) ∧
    (∀ a, a < 2 ^ 2 → ∀ b, b < 2 ^ 2 →
      (∑ r in Finset.range (2 ^ 2), simU 2 r a * simU 2 r b) =
        if a = b then 1 else 0)) :=
  ⟨by decide, claim_C2 2 (by decide)⟩

end Spinsys
